import Mathlib

/-!
Verification of the rectpack texture packer (guillotine-split rectangle
packing).  The Go sources are shallowly embedded below: `image.Rectangle`
becomes `Rect` over `Int`, `image.RGBA` becomes `Img` (a bounds rectangle
plus a total pixel function; `At` applies the bounds check of Go's
`RGBA.At`), and the packer state is threaded explicitly.  The repository
contains two revisions of the packer; the current one (zero initial canvas,
unconditional growth, `packed` flag, `SubImage`) is embedded in the
`Rectpack` namespace and the earlier one (explicit initial canvas size,
`AllowGrowth` flag, `Pack(flags)`) in the `Rectpack.Old` namespace.
-/

namespace Rectpack

/-! ### Geometry: the image.Rectangle model -/

/-- Model of Go's `image.Rectangle`: min and max corners. -/
structure Rect where
  minX : Int
  minY : Int
  maxX : Int
  maxY : Int
deriving DecidableEq, Repr

/-- Width, Go's `Rectangle.Dx`. -/
def Rect.dx (r : Rect) : Int := r.maxX - r.minX

/-- Height, Go's `Rectangle.Dy`. -/
def Rect.dy (r : Rect) : Int := r.maxY - r.minY

/-- Go's `image.Rect(x0, y0, x1, y1)`: swaps coordinates so the result is
well-formed (min componentwise below max). -/
def imageRect (x0 y0 x1 y1 : Int) : Rect :=
  ⟨min x0 x1, min y0 y1, max x0 x1, max y0 y1⟩

/-- The repository's helper `rect(x, y, w, h)` building a rectangle from
origin and extents via `image.Rect`. -/
def rect (x y w h : Int) : Rect := imageRect x y (x + w) (y + h)

/-- The repository's `area(r) = r.Dx() * r.Dy()`. -/
def area (r : Rect) : Int := r.dx * r.dy

/-- Point membership, Go's `Point.In`: min-inclusive, max-exclusive. -/
def Rect.memP (r : Rect) (x y : Int) : Prop :=
  r.minX ≤ x ∧ x < r.maxX ∧ r.minY ≤ y ∧ y < r.maxY

instance (r : Rect) (x y : Int) : Decidable (r.memP x y) := by
  unfold Rect.memP; infer_instance

/-- Containment of rectangles as point sets. -/
def subR (a b : Rect) : Prop := ∀ x y : Int, a.memP x y → b.memP x y

/-- Disjointness of rectangles as point sets (empty intersection). -/
def disjR (a b : Rect) : Prop := ∀ x y : Int, a.memP x y → ¬ b.memP x y

/-- A well-formed (canonical) rectangle: min corner below max corner. -/
def canon (r : Rect) : Prop := r.minX ≤ r.maxX ∧ r.minY ≤ r.maxY

instance (r : Rect) : Decidable (canon r) := by
  unfold canon; infer_instance

/-! ### Errors -/

/-- The error values of both packer revisions. -/
inductive PackErr where
  | noEmptySpace
  | splitFailed
  | growthFailed
  | unsupportedSaveExt
  | notPacked
  | notFoundNoDefault
  | alreadyPacked
deriving DecidableEq, Repr

/-! ### Pixels and images -/

/-- An RGBA pixel value (one byte per channel in Go). -/
structure Color where
  r : Nat
  g : Nat
  b : Nat
  a : Nat
deriving DecidableEq, Repr

/-- Go's zero `color.RGBA{}`, returned by `RGBA.At` outside the bounds. -/
def zeroColor : Color := ⟨0, 0, 0, 0⟩

/-- Model of Go's `*image.RGBA`: the bounds rectangle plus the pixel grid
(the `Pix` backing array) as a total function. -/
structure Img where
  rect : Rect
  pix : Int → Int → Color

/-- Go's `RGBA.At(x, y)`: the zero color outside the bounds, otherwise the
stored pixel. -/
def Img.At (p : Img) (x y : Int) : Color :=
  if p.rect.memP x y then p.pix x y else zeroColor

/-! ### The Splitter (split.go) -/

/-- Container for the leftover space after split (`createdSplits`). -/
structure CreatedSplits where
  hasSmall : Bool
  hasBig : Bool
  count : Nat
  smaller : Rect
  bigger : Rect
deriving DecidableEq, Repr

/-- The variadic `splits(rects ...)` constructor: records the first
rectangle as `smaller`, and the second as `bigger` when present. -/
def splits (rs : List Rect) : CreatedSplits :=
  let s : CreatedSplits :=
    { hasSmall := true, hasBig := false, count := rs.length,
      smaller := rs.headD (rect 0 0 0 0), bigger := rect 0 0 0 0 }
  if rs.length == 2 then
    { s with hasBig := true, bigger := rs.getD 1 (rect 0 0 0 0) }
  else s

/-- The `split(img, space)` helper: carves the free rectangle `space`
around an image of `img`'s extents placed at `space`'s origin, failing when
the image exceeds the space in either dimension. -/
def split (img space : Rect) : Except PackErr CreatedSplits :=
  let w := space.dx - img.dx
  let h := space.dy - img.dy
  if w < 0 ∨ h < 0 then .error .splitFailed
  else if w = 0 ∧ h = 0 then
    .ok { hasSmall := false, hasBig := false, count := 0,
          smaller := rect 0 0 0 0, bigger := rect 0 0 0 0 }
  else if w > 0 ∧ h = 0 then
    .ok (splits [rect (space.minX + img.dx) space.minY w img.dy])
  else if w = 0 ∧ h > 0 then
    .ok (splits [rect space.minX (space.minY + img.dy) img.dx h])
  else if w > h then
    .ok (splits [rect space.minX (space.minY + img.dy) img.dx h,
                 rect (space.minX + img.dx) space.minY w space.dy])
  else
    .ok (splits [rect (space.minX + img.dx) space.minY w img.dy,
                 rect space.minX (space.minY + img.dy) space.dx h])

deriving instance DecidableEq for Except

/-- Total area of the leftover rectangles a split produced. -/
def CreatedSplits.leftoverArea (s : CreatedSplits) : Int :=
  (if s.hasSmall then area s.smaller else 0) +
  (if s.hasBig then area s.bigger else 0)

/-- The leftover rectangles, in the order `insert` returns them to the
free-space pool (bigger first, then smaller). -/
def piecesOf (s : CreatedSplits) : List Rect :=
  (if s.hasBig then [s.bigger] else []) ++ (if s.hasSmall then [s.smaller] else [])

/-! ### Maps (Go `map[int]...` as association lists) -/

/-- Map lookup (`m[k]`, reporting presence). -/
def lookupA {α : Type} : List (Int × α) → Int → Option α
  | [], _ => none
  | (k2, v) :: rest, k => if k2 = k then some v else lookupA rest k

/-- Map assignment `m[k] = v` (overwrite semantics of a Go map). -/
def updateA {α : Type} (m : List (Int × α)) (k : Int) (v : α) : List (Int × α) :=
  (k, v) :: m.filter (fun p => p.1 != k)

/-- The keys of a map. -/
def keysOf {α : Type} (m : List (Int × α)) : List Int := m.map Prod.fst

/-! ### Queue, free-space pool and single-item insertion -/

/-- A queued insert request (`queuedData`). -/
structure QueuedData where
  id : Int
  pic : Img

/-- The mutable state `insert`, `grow` and the packing loop act on: the
free-space pool and the two bookkeeping maps. -/
structure InsSt where
  spaces : List Rect
  rects : List (Int × Rect)
  images : List (Int × Img)

/-- `find(bounds)`: index of the first free rectangle at least as wide and
as tall as `bounds`. -/
def find : List Rect → Rect → Option Nat
  | [], _ => none
  | s :: rest, b =>
    if b.dx ≤ s.dx ∧ b.dy ≤ s.dy then some 0 else (find rest b).map (· + 1)

/-- One step of the insertion sort underlying the pool re-sort. -/
def insSorted (r : Rect) : List Rect → List Rect
  | [] => [r]
  | x :: xs => if area r ≤ area x then r :: x :: xs else x :: insSorted r xs

/-- The pool re-sort after every mutation: ascending by area
(`sort.Slice(emptySpaces, area less)`). -/
def sortByArea (l : List Rect) : List Rect := l.foldr insSorted []

/-- The private `insert(data)`: find and remove a fitting free rectangle,
split it around the image footprint, return the leftovers to the pool
(bigger first), re-sort the pool and record the placement.  Errors leave
the partially mutated state, as the Go method does. -/
def insertData (st : InsSt) (data : QueuedData) : InsSt × Option PackErr :=
  let bounds := data.pic.rect
  match find st.spaces bounds with
  | none => (st, some .growthFailed)
  | some i =>
    let space := st.spaces.getD i (rect 0 0 0 0)
    let spaces1 := st.spaces.eraseIdx i
    match split bounds space with
    | .error e => ({ st with spaces := spaces1 }, some e)
    | .ok s =>
      let spaces2 := if s.hasBig then spaces1 ++ [s.bigger] else spaces1
      let spaces3 := if s.hasSmall then spaces2 ++ [s.smaller] else spaces2
      ({ spaces := sortByArea spaces3,
         rects := updateA st.rects data.id (rect space.minX space.minY bounds.dx bounds.dy),
         images := updateA st.images data.id data.pic }, none)

/-- Sequential insertion of a list of queued items, stopping at the first
error (the replay loop inside `grow`). -/
def insertAll : InsSt → List QueuedData → InsSt × Option PackErr
  | st, [] => (st, none)
  | st, d :: ds =>
    match insertData st d with
    | (st2, none) => insertAll st2 ds
    | (st2, some e) => (st2, some e)

/-- The bounds enlargement of `grow`: add the next item's extents to the
canvas size, keeping the origin. -/
def growBounds (b : Rect) (gw gh : Int) : Rect :=
  rect b.minX b.minY (b.dx + gw) (b.dy + gh)

/-- `grow(growBy, endex)`: enlarge the bounds, reset the pool to a single
rectangle spanning the new bounds, and replay the already processed
queue prefix. -/
def grow (b : Rect) (st : InsSt) (gw gh : Int) (done : List QueuedData) :
    Rect × InsSt × Option PackErr :=
  let b2 := growBounds b gw gh
  let r := insertAll { st with spaces := [b2] } done
  (b2, r.1, r.2)

/-- The packing loop of the current revision's `Pack`: for each queued item
try to find a fit, growing (and replaying the processed prefix `done`)
when none exists, then insert the item. -/
def packLoopG : List QueuedData → List QueuedData → Rect → InsSt →
    Rect × InsSt × Option PackErr
  | [], _, b, st => (b, st, none)
  | d :: rest, done, b, st =>
    match find st.spaces d.pic.rect with
    | some _ =>
      match insertData st d with
      | (st2, none) => packLoopG rest (done ++ [d]) b st2
      | (st2, some e) => (b, st2, some e)
    | none =>
      match grow b st d.pic.rect.dx d.pic.rect.dy done with
      | (b2, st2, none) =>
        match insertData st2 d with
        | (st3, none) => packLoopG rest (done ++ [d]) b2 st3
        | (st3, some e) => (b2, st3, some e)
      | (b2, st2, some e) => (b2, st2, some e)

/-! ### Queue sorting (largest area first) -/

/-- One step of the insertion sort for the queue. -/
def insQueued (d : QueuedData) : List QueuedData → List QueuedData
  | [] => [d]
  | x :: xs =>
    if area x.pic.rect < area d.pic.rect then d :: x :: xs else x :: insQueued d xs

/-- The queue sort at the start of `Pack`: descending by image area
(`sort.Slice(queued, area greater)`). -/
def sortQueue (q : List QueuedData) : List QueuedData := q.foldr insQueued []

/-! ### Canvas composition (current revision: `Set` / `At`) -/

/-- `image.NewRGBA(bounds)`: a canvas of the given bounds, zero pixels. -/
def newCanvas (b : Rect) : Img := ⟨b, fun _ _ => zeroColor⟩

/-- Go's `RGBA.Set(x, y, c)`: writes the pixel when `(x, y)` is inside the
bounds, otherwise does nothing. -/
def setPix (cv : Img) (x y : Int) (c : Color) : Img :=
  if cv.rect.memP x y then
    { cv with pix := fun a b => if a = x ∧ b = y then c else cv.pix a b }
  else cv

/-- The per-image copy loop of `Pack`: for each source coordinate
`(x, y)` with `0 ≤ x < Dx`, `0 ≤ y < Dy`, set the canvas pixel at the
placement origin plus `(x, y)` to `pic.At(x, y)`. -/
def writeImg (acc : Img) (r : Rect) (pic : Img) : Img :=
  (List.range pic.rect.dx.toNat).foldl (fun cv1 (x : Nat) =>
    (List.range pic.rect.dy.toNat).foldl (fun cv2 (y : Nat) =>
      setPix cv2 ((x : Int) + r.minX) ((y : Int) + r.minY)
        (pic.At (x : Int) (y : Int))) cv1) acc

/-- The composition pass of `Pack`: allocate the canvas and copy every
placed image to its recorded rectangle (a missing map entry reads as the
zero rectangle, as a Go map does). -/
def compose (b : Rect) (ims : List (Int × Img)) (rs : List (Int × Rect)) : Img :=
  ims.foldl (fun cv p => writeImg cv ((lookupA rs p.1).getD (rect 0 0 0 0)) p.2)
    (newCanvas b)

/-! ### The current-revision Packer -/

/-- Construction options (`PackerCfg`). -/
structure PackerCfg where
  flags : Nat

/-- The current revision's `Packer`. -/
structure Packer where
  cfg : PackerCfg
  bounds : Rect
  emptySpaces : List Rect
  queued : List QueuedData
  rects : List (Int × Rect)
  images : List (Int × Img)
  pic : Img
  nfId : Int
  packed : Bool

/-- `NewPacker(cfg)`: zero bounds, empty pool and queue, default id -1. -/
def Packer.new (cfg : PackerCfg) : Packer :=
  { cfg := cfg, bounds := rect 0 0 0 0, emptySpaces := [], queued := [],
    rects := [], images := [], pic := newCanvas (rect 0 0 0 0),
    nfId := -1, packed := false }

/-- `Insert(id, pic)`: enqueue the request. -/
def Packer.Insert (p : Packer) (id : Int) (pic : Img) : Packer :=
  { p with queued := p.queued ++ [⟨id, pic⟩] }

/-- A sequence of `Insert` calls. -/
def insertList (p : Packer) (q : List (Int × Img)) : Packer :=
  q.foldl (fun p2 pr => p2.Insert pr.1 pr.2) p

/-- The current revision's `Pack()`: fails at once when already packed;
otherwise sorts the queue by descending area, runs the packing loop
(growing on demand), then composes the canvas, discards the queue, pool
and source images and marks the instance packed.  On an error the
partially mutated receiver is kept, unmarked. -/
def Packer.Pack (p : Packer) : Packer × Option PackErr :=
  if p.packed then (p, some .alreadyPacked)
  else
    let q := sortQueue p.queued
    match packLoopG q [] p.bounds ⟨p.emptySpaces, p.rects, p.images⟩ with
    | (b, st, some e) =>
      ({ p with queued := q, bounds := b, emptySpaces := st.spaces,
                rects := st.rects, images := st.images }, some e)
    | (b, st, none) =>
      ({ p with queued := [], bounds := b, emptySpaces := [],
                rects := st.rects, images := [],
                pic := compose b st.images st.rects, packed := true }, none)

/-- `Get(id)`: the placed rectangle, falling back to the default id when
one is set.  The Go method panics before packing or when the id is unknown
with no default; both are modelled as `none`. -/
def Packer.Get (p : Packer) (id : Int) : Option Rect :=
  if p.packed = false then none
  else
    match lookupA p.rects id with
    | some r => some r
    | none =>
      if p.nfId = -1 then none
      else some ((lookupA p.rects p.nfId).getD (rect 0 0 0 0))

/-- `SubImage(id)`: a view of the canvas cropped to the placed rectangle,
re-based at the origin, sharing the canvas pixel grid.  `none` models the
panic before packing. -/
def Packer.SubImage (p : Packer) (id : Int) : Option Img :=
  if p.packed = false then none
  else
    match p.Get id with
    | none => none
    | some r =>
      some ⟨rect 0 0 r.dx r.dy, fun x y => p.pic.pix (x + r.minX) (y + r.minY)⟩

/-! ### Verification-side definitions: invariants used by the proofs -/

/-- The free-space pool invariant: the pool rectangles and the placed
rectangles are all well-formed, contained in the bounds, and mutually
disjoint. -/
structure PoolInv (B : Rect) (spaces : List Rect) (placed : List Rect) : Prop where
  spCanon : ∀ s ∈ spaces, canon s
  spSub : ∀ s ∈ spaces, subR s B
  plSub : ∀ r ∈ placed, subR r B
  spDisj : spaces.Pairwise disjR
  plDisj : placed.Pairwise disjR
  cross : ∀ s ∈ spaces, ∀ r ∈ placed, disjR s r

/-- The packing-loop invariant: the bookkeeping maps hold exactly the
processed prefix of the queue, with dimensions matching the source images,
and the pool invariant holds over the placement-map values. -/
structure LoopInv (done : List QueuedData) (b : Rect) (st : InsSt) : Prop where
  bCanon : canon b
  rKeys : keysOf st.rects = (done.map QueuedData.id).reverse
  rDims : ∀ pr ∈ st.rects, ∃ d ∈ done, pr.1 = d.id ∧
    pr.2.dx = d.pic.rect.dx ∧ pr.2.dy = d.pic.rect.dy
  iShape : st.images = (done.map (fun d => (d.id, d.pic))).reverse
  pool : PoolInv b st.spaces (st.rects.map Prod.snd)

/-- The queued-data list of a raw id-image list. -/
def qdOf (q : List (Int × Img)) : List QueuedData :=
  q.map (fun pr => ⟨pr.1, pr.2⟩)

end Rectpack

namespace Rectpack.Old

open Rectpack

/-! ### The earlier packer revision: `NewPacker(width, height, flags)`,
`AllowGrowth` construction flag, `Pack(flags)` with an `InsertFlipped`
pack flag. -/

/-- The `AllowGrowth` creation flag (`1 << 0`). -/
def AllowGrowth : Nat := 1

/-- The `InsertFlipped` pack flag (`1 << 0`). -/
def InsertFlipped : Nat := 1

/-- The earlier revision's `Packer`. -/
structure Packer where
  bounds : Rect
  emptySpaces : List Rect
  queued : List QueuedData
  rects : List (Int × Rect)
  images : List (Int × Img)
  flags : Nat
  pic : Img
  nfId : Int

/-- The earlier `NewPacker(width, height, flags)`: the pool starts as one
rectangle spanning the given bounds. -/
def NewPacker (width height : Int) (flags : Nat) : Packer :=
  { bounds := rect 0 0 width height, flags := flags,
    emptySpaces := [rect 0 0 width height], queued := [],
    rects := [], images := [], pic := newCanvas (rect 0 0 0 0), nfId := 0 }

/-- The earlier `Insert(id, pic)`. -/
def Packer.Insert (p : Packer) (id : Int) (pic : Img) : Packer :=
  { p with queued := p.queued ++ [⟨id, pic⟩] }

/-- The earlier revision's packing loop: on a missed fit it fails with
`noEmptySpace` unless `AllowGrowth` was set at construction, in which case
it grows exactly as the current revision does. -/
def packLoop (cf : Nat) : List QueuedData → List QueuedData → Rect → InsSt →
    Rect × InsSt × Option PackErr
  | [], _, b, st => (b, st, none)
  | d :: rest, done, b, st =>
    match find st.spaces d.pic.rect with
    | some _ =>
      match insertData st d with
      | (st2, none) => packLoop cf rest (done ++ [d]) b st2
      | (st2, some e) => (b, st2, some e)
    | none =>
      if cf &&& AllowGrowth = 0 then (b, st, some .noEmptySpace)
      else
        match grow b st d.pic.rect.dx d.pic.rect.dy done with
        | (b2, st2, none) =>
          match insertData st2 d with
          | (st3, none) => packLoop cf rest (done ++ [d]) b2 st3
          | (st3, some e) => (b2, st3, some e)
        | (b2, st2, some e) => (b2, st2, some e)

/-- Raw write to the pixel grid (`pic.Pix[dstI] = ...`, no bounds guard). -/
def setPixRaw (cv : Img) (x y : Int) (c : Color) : Img :=
  { cv with pix := fun a b => if a = x ∧ b = y then c else cv.pix a b }

/-- The earlier revision's copy loop: the source offset is computed by the
same expression in both arms of the `InsertFlipped` test, so the flag is
inert. -/
def writeImgOld (flags : Nat) (acc : Img) (r : Rect) (pic : Img) : Img :=
  (List.range pic.rect.dx.toNat).foldl (fun cv1 (x : Nat) =>
    (List.range pic.rect.dy.toNat).foldl (fun cv2 (y : Nat) =>
      setPixRaw cv2 ((x : Int) + r.minX) ((y : Int) + r.minY)
        (if flags &&& InsertFlipped ≠ 0
         then pic.pix (x : Int) (y : Int)
         else pic.pix (x : Int) (y : Int))) cv1) acc

/-- The earlier revision's composition pass. -/
def composeOld (flags : Nat) (b : Rect) (ims : List (Int × Img))
    (rs : List (Int × Rect)) : Img :=
  ims.foldl
    (fun cv p => writeImgOld flags cv ((lookupA rs p.1).getD (rect 0 0 0 0)) p.2)
    (newCanvas b)

/-- The earlier revision's `Pack(flags)`: no idempotence guard; sorts the
queue, runs the loop under the construction flags, then composes the
canvas under the pack flags. -/
def Packer.Pack (p : Packer) (flags : Nat) : Packer × Option PackErr :=
  let q := sortQueue p.queued
  match packLoop p.flags q [] p.bounds ⟨p.emptySpaces, p.rects, p.images⟩ with
  | (b, st, some e) =>
    ({ p with queued := q, bounds := b, emptySpaces := st.spaces,
              rects := st.rects, images := st.images }, some e)
  | (b, st, none) =>
    ({ p with queued := [], bounds := b, emptySpaces := [],
              rects := st.rects, images := [],
              pic := composeOld flags b st.images st.rects }, none)

end Rectpack.Old

namespace Rectpack

/-! ### Basic geometry lemmas -/

theorem rect_of_nonneg {x y w h : Int} (hw : 0 ≤ w) (hh : 0 ≤ h) :
    rect x y w h = ⟨x, y, x + w, y + h⟩ := by
  unfold rect imageRect
  simp only [Rect.mk.injEq]
  omega

theorem dx_rect {x y w h : Int} (hw : 0 ≤ w) (hh : 0 ≤ h) :
    (rect x y w h).dx = w := by
  rw [rect_of_nonneg hw hh]; simp [Rect.dx]

theorem dy_rect {x y w h : Int} (hw : 0 ≤ w) (hh : 0 ≤ h) :
    (rect x y w h).dy = h := by
  rw [rect_of_nonneg hw hh]; simp [Rect.dy]

theorem area_rect {x y w h : Int} (hw : 0 ≤ w) (hh : 0 ≤ h) :
    area (rect x y w h) = w * h := by
  rw [area, dx_rect hw hh, dy_rect hw hh]

theorem memP_rect {x y w h a b : Int} (hw : 0 ≤ w) (hh : 0 ≤ h) :
    (rect x y w h).memP a b ↔ x ≤ a ∧ a < x + w ∧ y ≤ b ∧ b < y + h := by
  rw [rect_of_nonneg hw hh]; exact Iff.rfl

theorem canon_rect {x y w h : Int} (hw : 0 ≤ w) (hh : 0 ≤ h) :
    canon (rect x y w h) := by
  rw [rect_of_nonneg hw hh]; unfold canon; constructor <;> [skip; skip] <;> simp <;> omega

theorem canon_iff {r : Rect} : canon r ↔ 0 ≤ r.dx ∧ 0 ≤ r.dy := by
  unfold canon Rect.dx Rect.dy; omega

theorem subR_refl (a : Rect) : subR a a := fun _ _ h => h

theorem subR_trans {a b c : Rect} (h1 : subR a b) (h2 : subR b c) : subR a c :=
  fun x y hm => h2 x y (h1 x y hm)

theorem disjR_symm {a b : Rect} (h : disjR a b) : disjR b a :=
  fun x y hb ha => h x y ha hb

theorem disjR_symmetric : Symmetric disjR := fun _ _ h => disjR_symm h

theorem disjR_mono_left {a a2 b : Rect} (hs : subR a a2) (h : disjR a2 b) :
    disjR a b := fun x y ha hb => h x y (hs x y ha) hb

theorem disjR_mono_right {a b b2 : Rect} (hs : subR b b2) (h : disjR a b2) :
    disjR a b := fun x y ha hb => h x y ha (hs x y hb)

/-! ### Split soundness -/

theorem pl_sub {img space : Rect} (hix : 0 ≤ img.dx) (hiy : 0 ≤ img.dy)
    (hfx : img.dx ≤ space.dx) (hfy : img.dy ≤ space.dy) :
    subR (rect space.minX space.minY img.dx img.dy) space := by
  intro x y hm
  rw [memP_rect hix hiy] at hm
  simp only [Rect.dx, Rect.dy] at hfx hfy hm
  unfold Rect.memP
  omega

theorem split_sound {img space : Rect} {s : CreatedSplits}
    (hix : 0 ≤ img.dx) (hiy : 0 ≤ img.dy)
    (h : split img space = .ok s) :
    (∀ p ∈ piecesOf s, subR p space ∧ canon p ∧
       disjR p (rect space.minX space.minY img.dx img.dy)) ∧
    (piecesOf s).Pairwise disjR := by
  simp only [split] at h
  split_ifs at h with h1 h2 h3 h4 h5
  all_goals rw [Except.ok.injEq] at h
  all_goals subst h
  all_goals simp [piecesOf, splits]
  all_goals repeat' apply And.intro
  all_goals simp only [subR, disjR, canon, Rect.memP, rect, imageRect, area,
    Rect.dx, Rect.dy] at *
  all_goals intros
  all_goals omega

/-- C4: for every image footprint no wider and no taller than the free
rectangle, `split` succeeds and the leftover areas plus the image area sum
exactly to the area of the space. -/
theorem split_conserves_area (img space : Rect)
    (hix : 0 ≤ img.dx) (hiy : 0 ≤ img.dy)
    (hfx : img.dx ≤ space.dx) (hfy : img.dy ≤ space.dy) :
    ∃ s, split img space = .ok s ∧ s.leftoverArea + area img = area space := by
  simp only [split]
  split_ifs with h1 h2 h3 h4 h5
  · exact absurd h1 (by omega)
  all_goals refine ⟨_, rfl, ?_⟩
  all_goals simp [CreatedSplits.leftoverArea, splits]
  · have e1 : space.dx = img.dx := by omega
    have e2 : space.dy = img.dy := by omega
    simp only [area]
    rw [e1, e2]
  · rw [area_rect (by omega) hiy]
    have e : space.dy = img.dy := by omega
    simp only [area]
    rw [e]
    ring
  · rw [area_rect hix (by omega)]
    have e : space.dx = img.dx := by omega
    simp only [area]
    rw [e]
    ring
  · rw [area_rect hix (by omega), area_rect (by omega) (by omega)]
    simp only [area]
    ring
  · rw [area_rect (by omega) hiy, area_rect (by omega) (by omega)]
    simp only [area]
    ring

/-- Witness for C4 at a concrete image and space (2x1 in 5x3). -/
theorem split_conserves_area_witness :
    ∃ s, split (rect 0 0 2 1) (rect 0 0 5 3) = .ok s ∧
      s.leftoverArea + area (rect 0 0 2 1) = area (rect 0 0 5 3) :=
  split_conserves_area (rect 0 0 2 1) (rect 0 0 5 3)
    (by decide) (by decide) (by decide) (by decide)

/-- C6: `split` returns the split-failure error exactly when the image is
strictly larger than the space in at least one dimension, and the
split-failure error is the only error it ever returns (the failing return
carries no splits container). -/
theorem split_fails_iff (img space : Rect) :
    (split img space = .error .splitFailed ↔
       img.dx > space.dx ∨ img.dy > space.dy) ∧
    (∀ e, split img space = .error e → e = .splitFailed) := by
  simp only [split]
  split_ifs with h1 h2 h3 h4 h5 <;>
    refine ⟨?_, ?_⟩ <;> simp <;> omega

/-- Witness for C6: a 10x10 image in an 8x20 space fails. -/
theorem split_fails_iff_witness :
    split (rect 0 0 10 10) (rect 0 0 8 20) = .error .splitFailed :=
  (split_fails_iff (rect 0 0 10 10) (rect 0 0 8 20)).1.mpr (by decide)

/-- C5 counterexample: in the general case with leftover width 3 greater
than leftover height 2 (a 2x1 image in a 5x3 space), the code's smaller
leftover lies below the image with the image's width (not to the right of
the image with the leftover width, as the claim states), and the bigger
leftover lies to the right spanning the full height (not below spanning
the full width). -/
theorem split_general_case_spec_swapped :
    split (rect 0 0 2 1) (rect 0 0 5 3) =
      .ok { hasSmall := true, hasBig := true, count := 2,
            smaller := rect 0 1 2 2, bigger := rect 2 0 3 3 } ∧
    rect 0 1 2 2 ≠ rect 2 0 3 1 ∧ rect 2 0 3 3 ≠ rect 0 1 5 2 := by
  decide

/-- C5 amended: in the general case (both leftovers positive), if the
leftover width w exceeds the leftover height h then the smaller leftover
lies below the image with the image's width and height h while the bigger
leftover lies to the right of the image with width w spanning the entire
free-space height; if h is at least w the roles mirror (smaller to the
right of the image with width w and the image's height, bigger below the
image spanning the entire free-space width with height h). -/
theorem split_general_case (img space : Rect)
    (hw : 0 < space.dx - img.dx) (hh : 0 < space.dy - img.dy) :
    (space.dx - img.dx > space.dy - img.dy →
      ∃ s, split img space = .ok s ∧ s.hasSmall = true ∧ s.hasBig = true ∧
        s.smaller = rect space.minX (space.minY + img.dy) img.dx (space.dy - img.dy) ∧
        s.bigger = rect (space.minX + img.dx) space.minY (space.dx - img.dx) space.dy) ∧
    (space.dy - img.dy ≥ space.dx - img.dx →
      ∃ s, split img space = .ok s ∧ s.hasSmall = true ∧ s.hasBig = true ∧
        s.smaller = rect (space.minX + img.dx) space.minY (space.dx - img.dx) img.dy ∧
        s.bigger = rect space.minX (space.minY + img.dy) space.dx (space.dy - img.dy)) := by
  simp only [split]
  split_ifs with h1 h2 h3 h4 h5 <;>
    first
    | exact absurd h1 (by omega)
    | (exact absurd h2 (by omega))
    | (exact absurd h3 (by omega))
    | (exact absurd h4 (by omega))
    | (constructor <;> intro hcmp <;>
        first
        | (exact absurd hcmp (by omega))
        | exact ⟨_, rfl, by simp [splits], by simp [splits],
            by simp [splits], by simp [splits]⟩)

/-- Witness for C5 amended, at the same 2x1 image in a 5x3 space. -/
theorem split_general_case_witness :
    ∃ s, split (rect 0 0 2 1) (rect 0 0 5 3) = .ok s ∧
      s.hasSmall = true ∧ s.hasBig = true ∧
      s.smaller = rect 0 1 2 2 ∧ s.bigger = rect 2 0 3 3 := by
  obtain ⟨s, h1, h2, h3, h4, h5⟩ :=
    (split_general_case (rect 0 0 2 1) (rect 0 0 5 3) (by decide) (by decide)).1
      (by decide)
  exact ⟨s, h1, h2, h3, by rw [h4]; decide, by rw [h5]; decide⟩

/-! map helpers -/

theorem lookupA_mem {α : Type} {m : List (Int × α)} {k : Int} {v : α}
    (h : lookupA m k = some v) : (k, v) ∈ m := by
  induction m with
  | nil => simp [lookupA] at h
  | cons p rest ih =>
    obtain ⟨k2, v2⟩ := p
    simp only [lookupA] at h
    split_ifs at h with he
    · subst he
      rw [Option.some.injEq] at h
      subst h
      exact List.mem_cons_self _ _
    · exact List.mem_cons_of_mem _ (ih h)

theorem lookupA_val_mem {α : Type} {m : List (Int × α)} {k : Int} {v : α}
    (h : lookupA m k = some v) : v ∈ m.map Prod.snd := by
  have := lookupA_mem h
  exact List.mem_map_of_mem Prod.snd this

theorem lookupA_isSome_of_mem_keys {α : Type} {m : List (Int × α)} {k : Int}
    (h : k ∈ keysOf m) : ∃ v, lookupA m k = some v := by
  induction m with
  | nil => simp [keysOf] at h
  | cons p rest ih =>
    obtain ⟨k2, v2⟩ := p
    simp only [keysOf, List.map_cons, List.mem_cons] at h
    simp only [lookupA]
    by_cases he : k2 = k
    · exact ⟨v2, by rw [if_pos he]⟩
    · rcases h with h | h
      · exact absurd h.symm he
      · rw [if_neg he]
        exact ih h

theorem updateA_not_mem {α : Type} {m : List (Int × α)} {k : Int} {v : α}
    (h : k ∉ keysOf m) : updateA m k v = (k, v) :: m := by
  unfold updateA
  congr 1
  apply List.filter_eq_self.mpr
  intro p hp
  simp only [bne_iff_ne, ne_eq]
  intro he
  exact h (he ▸ List.mem_map_of_mem Prod.fst hp)

theorem keysOf_filter_subset {α : Type} {m : List (Int × α)} {k : Int} :
    ∀ k2 ∈ keysOf (m.filter (fun p => p.1 != k)), k2 ∈ keysOf m ∧ k2 ≠ k := by
  intro k2 h
  simp only [keysOf, List.mem_map] at h
  obtain ⟨p, hp, rfl⟩ := h
  rw [List.mem_filter] at hp
  refine ⟨List.mem_map_of_mem Prod.fst hp.1, ?_⟩
  simpa [bne_iff_ne] using hp.2

theorem lookupA_pairwise_disj {m : List (Int × Rect)}
    (hn : (keysOf m).Nodup)
    (hp : (m.map Prod.snd).Pairwise disjR)
    {i j : Int} {ri rj : Rect} (hne : i ≠ j)
    (hi : lookupA m i = some ri) (hj : lookupA m j = some rj) :
    disjR ri rj := by
  induction m with
  | nil => simp [lookupA] at hi
  | cons p rest ih =>
    obtain ⟨k, v⟩ := p
    simp only [keysOf, List.map_cons, List.nodup_cons] at hn
    simp only [List.map_cons, List.pairwise_cons] at hp
    simp only [lookupA] at hi hj
    by_cases e1 : k = i <;> by_cases e2 : k = j
    · exact absurd (e1 ▸ e2) hne
    · rw [if_pos e1] at hi
      rw [if_neg e2] at hj
      rw [Option.some.injEq] at hi
      subst hi
      exact hp.1 rj (lookupA_val_mem hj)
    · rw [if_neg e1] at hi
      rw [if_pos e2] at hj
      rw [Option.some.injEq] at hj
      subst hj
      exact disjR_symm (hp.1 ri (lookupA_val_mem hi))
    · rw [if_neg e1] at hi
      rw [if_neg e2] at hj
      exact ih hn.2 hp.2 hi hj

/-! sorting permutations -/

theorem insSorted_perm (r : Rect) (l : List Rect) : (insSorted r l).Perm (r :: l) := by
  induction l with
  | nil => simp [insSorted]
  | cons x xs ih =>
    simp only [insSorted]
    split_ifs
    · exact List.Perm.refl _
    · exact (ih.cons x).trans (List.Perm.swap r x xs)

theorem sortByArea_perm (l : List Rect) : (sortByArea l).Perm l := by
  induction l with
  | nil => simp [sortByArea]
  | cons x xs ih =>
    have : sortByArea (x :: xs) = insSorted x (sortByArea xs) := rfl
    rw [this]
    exact (insSorted_perm x (sortByArea xs)).trans (ih.cons x)

theorem insQueued_perm (d : QueuedData) (l : List QueuedData) :
    (insQueued d l).Perm (d :: l) := by
  induction l with
  | nil => simp [insQueued]
  | cons x xs ih =>
    simp only [insQueued]
    split_ifs
    · exact List.Perm.refl _
    · exact (ih.cons x).trans (List.Perm.swap d x xs)

theorem sortQueue_perm (q : List QueuedData) : (sortQueue q).Perm q := by
  induction q with
  | nil => simp [sortQueue]
  | cons x xs ih =>
    have : sortQueue (x :: xs) = insQueued x (sortQueue xs) := rfl
    rw [this]
    exact (insQueued_perm x (sortQueue xs)).trans (ih.cons x)

/-! find and eraseIdx helpers -/

theorem find_some {spaces : List Rect} {b : Rect} {i : Nat}
    (h : find spaces b = some i) :
    i < spaces.length ∧ b.dx ≤ (spaces.getD i (rect 0 0 0 0)).dx ∧
      b.dy ≤ (spaces.getD i (rect 0 0 0 0)).dy := by
  induction spaces generalizing i with
  | nil => simp [find] at h
  | cons s rest ih =>
    simp only [find] at h
    split_ifs at h with hc
    · rw [Option.some.injEq] at h
      subst h
      simpa using hc
    · rw [Option.map_eq_some'] at h
      obtain ⟨j, hj, rfl⟩ := h
      obtain ⟨h1, h2, h3⟩ := ih hj
      refine ⟨?_, ?_, ?_⟩
      · simpa using h1
      · rw [List.getD_cons_succ]; exact h2
      · rw [List.getD_cons_succ]; exact h3

theorem getD_mem_of_lt {l : List Rect} {i : Nat} (h : i < l.length) :
    l.getD i (rect 0 0 0 0) ∈ l := by
  rw [List.getD_eq_getElem l _ h]
  exact List.getElem_mem h

theorem mem_of_mem_eraseIdx {l : List Rect} {i : Nat} {x : Rect}
    (h : x ∈ l.eraseIdx i) : x ∈ l :=
  (List.eraseIdx_sublist l i).mem h

theorem pairwise_eraseIdx {l : List Rect} {i : Nat} (hp : l.Pairwise disjR) :
    (l.eraseIdx i).Pairwise disjR :=
  hp.sublist (List.eraseIdx_sublist l i)

theorem pairwise_getD_eraseIdx {l : List Rect} (hp : l.Pairwise disjR) :
    ∀ i : Nat, i < l.length → ∀ x ∈ l.eraseIdx i, disjR (l.getD i (rect 0 0 0 0)) x := by
  induction l with
  | nil => intro i hi; simp at hi
  | cons a t ih =>
    intro i hi x hx
    rw [List.pairwise_cons] at hp
    cases i with
    | zero =>
      simp only [List.eraseIdx] at hx
      exact hp.1 x hx
    | succ j =>
      simp only [List.eraseIdx] at hx
      rcases List.mem_cons.mp hx with rfl | hx2
      · have hmem : t.getD j (rect 0 0 0 0) ∈ t :=
          getD_mem_of_lt (by simpa using hi)
        simpa using disjR_symm (hp.1 _ hmem)
      · simpa using ih hp.2 j (by simpa using hi) x hx2

/-! pool invariant -/


theorem PoolInv.perm {B : Rect} {spaces spaces2 placed : List Rect}
    (hperm : spaces.Perm spaces2) (h : PoolInv B spaces placed) :
    PoolInv B spaces2 placed := by
  constructor
  · intro s hs; exact h.spCanon s (hperm.mem_iff.mpr hs)
  · intro s hs; exact h.spSub s (hperm.mem_iff.mpr hs)
  · exact h.plSub
  · exact (hperm.pairwise_iff (fun hab => disjR_symm hab)).mp h.spDisj
  · exact h.plDisj
  · intro s hs; exact h.cross s (hperm.mem_iff.mpr hs)

theorem spaces3_eq (spaces1 : List Rect) (s : CreatedSplits) :
    (if s.hasSmall then
       (if s.hasBig then spaces1 ++ [s.bigger] else spaces1) ++ [s.smaller]
     else (if s.hasBig then spaces1 ++ [s.bigger] else spaces1)) =
      spaces1 ++ piecesOf s := by
  unfold piecesOf
  cases s.hasSmall <;> cases s.hasBig <;> simp

theorem insertData_ok {B : Rect} {st st2 : InsSt} {d : QueuedData} {placed : List Rect}
    (hpic : canon d.pic.rect)
    (hinv : PoolInv B st.spaces placed)
    (h : insertData st d = (st2, none)) :
    ∃ pl : Rect,
      st2.rects = updateA st.rects d.id pl ∧
      st2.images = updateA st.images d.id d.pic ∧
      pl.dx = d.pic.rect.dx ∧ pl.dy = d.pic.rect.dy ∧ canon pl ∧
      PoolInv B st2.spaces (pl :: placed) := by
  simp only [insertData] at h
  split at h
  next hf => exact absurd h (by simp)
  next i hf =>
    split at h
    next e hs => exact absurd h (by simp)
    next s hs =>
      rw [Prod.mk.injEq] at h
      obtain ⟨hst, -⟩ := h
      subst hst
      obtain ⟨hlen, hfitx, hfity⟩ := find_some hf
      set space := st.spaces.getD i (rect 0 0 0 0) with hsp
      have hspmem : space ∈ st.spaces := getD_mem_of_lt hlen
      have hcansp : canon space := hinv.spCanon space hspmem
      have hix : 0 ≤ d.pic.rect.dx := (canon_iff.mp hpic).1
      have hiy : 0 ≤ d.pic.rect.dy := (canon_iff.mp hpic).2
      have hsplit := split_sound hix hiy hs
      set pl : Rect := rect space.minX space.minY d.pic.rect.dx d.pic.rect.dy with hpldef
      have hplsub : subR pl space := pl_sub hix hiy hfitx hfity
      have hplcan : canon pl := canon_rect hix hiy
      have herase : ∀ x ∈ st.spaces.eraseIdx i, x ∈ st.spaces :=
        fun x hx => mem_of_mem_eraseIdx hx
      have hspdisj : ∀ x ∈ st.spaces.eraseIdx i, disjR space x :=
        pairwise_getD_eraseIdx hinv.spDisj i hlen
      refine ⟨pl, rfl, rfl, dx_rect hix hiy, dy_rect hix hiy, hplcan, ?_⟩
      rw [spaces3_eq]
      refine PoolInv.perm (sortByArea_perm _).symm ?_
      constructor
      · intro x hx
        rcases List.mem_append.mp hx with hx1 | hx2
        · exact hinv.spCanon x (herase x hx1)
        · exact (hsplit.1 x hx2).2.1
      · intro x hx
        rcases List.mem_append.mp hx with hx1 | hx2
        · exact hinv.spSub x (herase x hx1)
        · exact subR_trans (hsplit.1 x hx2).1 (hinv.spSub space hspmem)
      · intro r hr
        rcases List.mem_cons.mp hr with rfl | hr2
        · exact subR_trans hplsub (hinv.spSub space hspmem)
        · exact hinv.plSub r hr2
      · rw [List.pairwise_append]
        refine ⟨pairwise_eraseIdx hinv.spDisj, hsplit.2, ?_⟩
        intro x hx p hp
        exact disjR_mono_right (hsplit.1 p hp).1 (disjR_symm (hspdisj x hx))
      · rw [List.pairwise_cons]
        refine ⟨?_, hinv.plDisj⟩
        intro r hr
        exact disjR_mono_left hplsub (hinv.cross space hspmem r hr)
      · intro x hx r hr
        rcases List.mem_append.mp hx with hx1 | hx2 <;>
          rcases List.mem_cons.mp hr with rfl | hr2
        · exact disjR_mono_right hplsub (disjR_symm (hspdisj x hx1))
        · exact hinv.cross x (herase x hx1) r hr2
        · exact (hsplit.1 x hx2).2.2
        · exact disjR_mono_left (hsplit.1 x hx2).1 (hinv.cross space hspmem r hr2)


/-! the replay lemma: sequential insertion from a clean pool rebuilds the
placement map with fresh entries for the replayed ids -/

theorem filter_front_eq {α : Type} {front : List (Int × α)} {k : Int}
    (h : ∀ p ∈ front, p.1 ≠ k) :
    front.filter (fun p => p.1 != k) = front := by
  apply List.filter_eq_self.mpr
  intro p hp
  simpa [bne_iff_ne] using h p hp

theorem insertAll_shape {B : Rect} :
    ∀ (ds : List QueuedData) (sp : List Rect) (front back : List (Int × Rect))
      (imf imb : List (Int × Img)) (st2 : InsSt),
      (∀ d ∈ ds, canon d.pic.rect) →
      (ds.map QueuedData.id).Nodup →
      (∀ k ∈ keysOf back, k ∈ ds.map QueuedData.id) →
      (∀ k ∈ keysOf front, k ∉ ds.map QueuedData.id) →
      (∀ k ∈ keysOf imb, k ∈ ds.map QueuedData.id) →
      (∀ k ∈ keysOf imf, k ∉ ds.map QueuedData.id) →
      PoolInv B sp (front.map Prod.snd) →
      insertAll ⟨sp, front ++ back, imf ++ imb⟩ ds = (st2, none) →
      ∃ pls : List (Int × Rect),
        st2.rects = pls ++ front ∧
        st2.images = (ds.map (fun d => (d.id, d.pic))).reverse ++ imf ∧
        keysOf pls = (ds.map QueuedData.id).reverse ∧
        (∀ pr ∈ pls, ∃ d ∈ ds, pr.1 = d.id ∧
          pr.2.dx = d.pic.rect.dx ∧ pr.2.dy = d.pic.rect.dy) ∧
        PoolInv B st2.spaces (pls.map Prod.snd ++ front.map Prod.snd) := by
  intro ds
  induction ds with
  | nil =>
    intro sp front back imf imb st2 _ _ hback _ himb _ hinv h
    have hb : back = [] := by
      cases back with
      | nil => rfl
      | cons p rest =>
        exact absurd (hback p.1 (by simp [keysOf])) (by simp)
    have hib : imb = [] := by
      cases imb with
      | nil => rfl
      | cons p rest =>
        exact absurd (himb p.1 (by simp [keysOf])) (by simp)
    subst hb
    subst hib
    simp only [insertAll] at h
    rw [Prod.mk.injEq] at h
    obtain ⟨hst, -⟩ := h
    subst hst
    exact ⟨[], by simp, by simp, by simp [keysOf], by simp, by simpa using hinv⟩
  | cons d ds ih =>
    intro sp front back imf imb st2 hcan hnodup hback hfront himb himf hinv h
    simp only [insertAll] at h
    split at h
    case _ st1 heq =>
      obtain ⟨sp1, rl1, il1⟩ := st1
      have hd : canon d.pic.rect := hcan d (List.mem_cons_self d ds)
      obtain ⟨pl, hrects, himages, hdx, hdy, hplcan, hpool⟩ :=
        insertData_ok hd hinv heq
      simp only at hrects himages hpool
      have hdid : d.id ∉ ds.map QueuedData.id :=
        (List.nodup_cons.mp (by simpa using hnodup)).1
      have hfrontne : ∀ p ∈ front, p.1 ≠ d.id := by
        intro p hp he
        exact hfront p.1 (List.mem_map_of_mem Prod.fst hp) (by simp [he])
      have himfne : ∀ p ∈ imf, p.1 ≠ d.id := by
        intro p hp he
        exact himf p.1 (List.mem_map_of_mem Prod.fst hp) (by simp [he])
      have hrects2 : rl1 = ((d.id, pl) :: front) ++
          back.filter (fun p => p.1 != d.id) := by
        rw [hrects]
        unfold updateA
        rw [List.filter_append, filter_front_eq hfrontne]
        rfl
      have himages2 : il1 = ((d.id, d.pic) :: imf) ++
          imb.filter (fun p => p.1 != d.id) := by
        rw [himages]
        unfold updateA
        rw [List.filter_append, filter_front_eq himfne]
        rfl
      rw [hrects2, himages2] at h
      obtain ⟨pls, ih1, ih2, ih3, ih4, ih5⟩ :=
        ih sp1 ((d.id, pl) :: front) (back.filter (fun p => p.1 != d.id))
          ((d.id, d.pic) :: imf) (imb.filter (fun p => p.1 != d.id)) st2
          (fun d2 hd2 => hcan d2 (List.mem_cons_of_mem d hd2))
          (List.nodup_cons.mp (by simpa using hnodup)).2
          (by
            intro k hk
            obtain ⟨hk1, hk2⟩ := keysOf_filter_subset k hk
            have := hback k hk1
            simp only [List.map_cons, List.mem_cons] at this
            rcases this with he | hm
            · exact absurd he hk2
            · exact hm)
          (by
            intro k hk
            simp only [keysOf, List.map_cons, List.mem_cons] at hk
            rcases hk with rfl | hk2
            · exact hdid
            · intro hm
              exact hfront k hk2 (by simp [hm]))
          (by
            intro k hk
            obtain ⟨hk1, hk2⟩ := keysOf_filter_subset k hk
            have := himb k hk1
            simp only [List.map_cons, List.mem_cons] at this
            rcases this with he | hm
            · exact absurd he hk2
            · exact hm)
          (by
            intro k hk
            simp only [keysOf, List.map_cons, List.mem_cons] at hk
            rcases hk with rfl | hk2
            · exact hdid
            · intro hm
              exact himf k hk2 (by simp [hm]))
          (by simpa using hpool)
          h
      refine ⟨pls ++ [(d.id, pl)], ?_, ?_, ?_, ?_, ?_⟩
      · rw [ih1, List.append_assoc]
        rfl
      · rw [ih2]
        simp [List.reverse_cons, List.append_assoc]
      · rw [keysOf, List.map_append, ← keysOf, ih3]
        simp [keysOf]
      · intro pr hpr
        rcases List.mem_append.mp hpr with hm | hm
        · obtain ⟨d2, hd2, he⟩ := ih4 pr hm
          exact ⟨d2, List.mem_cons_of_mem d hd2, he⟩
        · rw [List.mem_singleton] at hm
          subst hm
          exact ⟨d, List.mem_cons_self d ds, rfl, hdx, hdy⟩
      · have : (pls ++ [(d.id, pl)]).map Prod.snd ++ front.map Prod.snd =
            pls.map Prod.snd ++ ((d.id, pl) :: front).map Prod.snd := by
          simp [List.append_assoc]
        rw [this]
        exact ih5
    case _ st1 e heq => exact absurd h (by simp)


/-! the main loop invariant -/


theorem keysOf_pairs_reverse (done : List QueuedData) :
    keysOf ((done.map (fun d => (d.id, d.pic))).reverse) =
      (done.map QueuedData.id).reverse := by
  unfold keysOf
  rw [List.map_reverse, List.map_map]
  rfl

theorem insert_step {done : List QueuedData} {b : Rect} {st st2 : InsSt}
    {d : QueuedData}
    (hfresh : d.id ∉ done.map QueuedData.id)
    (hpic : canon d.pic.rect)
    (hinv : LoopInv done b st)
    (h : insertData st d = (st2, none)) :
    LoopInv (done ++ [d]) b st2 := by
  obtain ⟨pl, hrects, himages, hdx, hdy, hplcan, hpool⟩ :=
    insertData_ok hpic hinv.pool h
  have hknotin : d.id ∉ keysOf st.rects := by
    rw [hinv.rKeys, List.mem_reverse]
    exact hfresh
  have hknotin2 : d.id ∉ keysOf st.images := by
    rw [hinv.iShape, keysOf_pairs_reverse, List.mem_reverse]
    exact hfresh
  have hrects2 : st2.rects = (d.id, pl) :: st.rects := by
    rw [hrects, updateA_not_mem hknotin]
  have himages2 : st2.images = (d.id, d.pic) :: st.images := by
    rw [himages, updateA_not_mem hknotin2]
  constructor
  · exact hinv.bCanon
  · rw [hrects2]
    unfold keysOf
    rw [List.map_cons]
    have hk := hinv.rKeys
    unfold keysOf at hk
    rw [hk]
    simp
  · intro pr hpr
    rw [hrects2] at hpr
    rcases List.mem_cons.mp hpr with rfl | hm
    · exact ⟨d, by simp, rfl, hdx, hdy⟩
    · obtain ⟨d2, hd2, he⟩ := hinv.rDims pr hm
      exact ⟨d2, List.mem_append_left _ hd2, he⟩
  · rw [himages2, hinv.iShape]
    simp
  · rw [hrects2]
    simpa using hpool

theorem grow_step {done : List QueuedData} {b : Rect} {st st2 : InsSt}
    {gw gh : Int}
    (hgw : 0 ≤ gw) (hgh : 0 ≤ gh)
    (hnodup : (done.map QueuedData.id).Nodup)
    (hcan : ∀ d ∈ done, canon d.pic.rect)
    (hinv : LoopInv done b st)
    (h : insertAll ⟨[growBounds b gw gh], st.rects, st.images⟩ done = (st2, none)) :
    LoopInv done (growBounds b gw gh) st2 := by
  have hbc : canon (growBounds b gw gh) := by
    unfold growBounds
    have := canon_iff.mp hinv.bCanon
    exact canon_rect (by omega) (by omega)
  have hpool0 : PoolInv (growBounds b gw gh) [growBounds b gw gh]
      (([] : List (Int × Rect)).map Prod.snd) := by
    constructor
    · intro s hs; rw [List.mem_singleton] at hs; subst hs; exact hbc
    · intro s hs; rw [List.mem_singleton] at hs; subst hs; exact subR_refl _
    · intro r hr; simp at hr
    · exact List.pairwise_singleton _ _
    · simp
    · intro s _ r hr; simp at hr
  obtain ⟨pls, ih1, ih2, ih3, ih4, ih5⟩ :=
    insertAll_shape done [growBounds b gw gh] [] st.rects [] st.images st2
      hcan hnodup
      (by
        intro k hk
        rw [hinv.rKeys, List.mem_reverse] at hk
        exact hk)
      (by intro k hk; simp [keysOf] at hk)
      (by
        intro k hk
        rw [hinv.iShape, keysOf_pairs_reverse, List.mem_reverse] at hk
        exact hk)
      (by intro k hk; simp [keysOf] at hk)
      hpool0 h
  constructor
  · exact hbc
  · rw [ih1]; simpa using ih3
  · intro pr hpr
    rw [ih1] at hpr
    exact ih4 pr (by simpa using hpr)
  · rw [ih2]; simp
  · rw [ih1]
    simpa using ih5


theorem growBounds_dims {b : Rect} {gw gh : Int}
    (hb : canon b) (hgw : 0 ≤ gw) (hgh : 0 ≤ gh) :
    (growBounds b gw gh).minX = b.minX ∧ (growBounds b gw gh).minY = b.minY ∧
    (growBounds b gw gh).dx = b.dx + gw ∧ (growBounds b gw gh).dy = b.dy + gh := by
  have hc := canon_iff.mp hb
  unfold growBounds
  rw [rect_of_nonneg (by omega) (by omega)]
  refine ⟨rfl, rfl, ?_, ?_⟩ <;> simp [Rect.dx, Rect.dy]

theorem packLoopG_inv :
    ∀ (rest done : List QueuedData) (b : Rect) (st : InsSt) (b2 : Rect) (st2 : InsSt),
      ((done ++ rest).map QueuedData.id).Nodup →
      (∀ d ∈ done ++ rest, canon d.pic.rect) →
      LoopInv done b st →
      packLoopG rest done b st = (b2, st2, none) →
      LoopInv (done ++ rest) b2 st2 ∧
        b2.minX = b.minX ∧ b2.minY = b.minY ∧ b.dx ≤ b2.dx ∧ b.dy ≤ b2.dy := by
  intro rest
  induction rest with
  | nil =>
    intro done b st b2 st2 _ _ hinv h
    simp only [packLoopG] at h
    rw [Prod.mk.injEq] at h
    obtain ⟨hb, h2⟩ := h
    rw [Prod.mk.injEq] at h2
    obtain ⟨hst, -⟩ := h2
    subst hb
    subst hst
    exact ⟨by simpa using hinv, rfl, rfl, le_refl _, le_refl _⟩
  | cons d rest ih =>
    intro done b st b2 st2 hnodup hcan hinv h
    have hdid : d.id ∉ done.map QueuedData.id := by
      intro hm
      have h2 := hnodup
      rw [List.map_append, List.nodup_append] at h2
      exact h2.2.2 hm (by simp)
    have hdcan : canon d.pic.rect := hcan d (by simp)
    have hgw : 0 ≤ d.pic.rect.dx := (canon_iff.mp hdcan).1
    have hgh : 0 ≤ d.pic.rect.dy := (canon_iff.mp hdcan).2
    have hnodup2 : (((done ++ [d]) ++ rest).map QueuedData.id).Nodup := by
      rw [List.append_assoc]
      simpa using hnodup
    have hcan2 : ∀ x ∈ (done ++ [d]) ++ rest, canon x.pic.rect := by
      intro x hx
      apply hcan
      rw [List.append_assoc] at hx
      simpa using hx
    simp only [packLoopG] at h
    split at h
    case _ i hf =>
      split at h
      case _ st1 heq =>
        have hinv2 := insert_step hdid hdcan hinv heq
        have hres := ih (done ++ [d]) b st1 b2 st2 hnodup2 hcan2 hinv2 h
        rw [List.append_assoc] at hres
        simpa using hres
      case _ st1 e heq => exact absurd h (by simp)
    case _ hf =>
      split at h
      case _ gb gst hgrow =>
        simp only [grow] at hgrow
        rw [Prod.mk.injEq] at hgrow
        obtain ⟨hgb, hrest⟩ := hgrow
        rw [Prod.mk.injEq] at hrest
        obtain ⟨hgst, hge⟩ := hrest
        have hins : insertAll
            ⟨[growBounds b d.pic.rect.dx d.pic.rect.dy], st.rects, st.images⟩ done =
            (gst, none) := Prod.ext hgst hge
        have hnddone : (done.map QueuedData.id).Nodup := by
          rw [List.map_append, List.nodup_append] at hnodup
          exact hnodup.1
        have hcandone : ∀ x ∈ done, canon x.pic.rect :=
          fun x hx => hcan x (List.mem_append_left _ hx)
        have hinv2 := grow_step hgw hgh hnddone hcandone hinv hins
        subst hgb
        obtain ⟨hm1, hm2, hm3, hm4⟩ := growBounds_dims hinv.bCanon hgw hgh
        split at h
        case _ st3 heq =>
          have hinv3 := insert_step hdid hdcan hinv2 heq
          have hres := ih (done ++ [d]) _ st3 b2 st2 hnodup2 hcan2 hinv3 h
          rw [List.append_assoc] at hres
          refine ⟨by simpa using hres.1, ?_, ?_, ?_, ?_⟩
          · rw [hres.2.1, hm1]
          · rw [hres.2.2.1, hm2]
          · refine le_trans ?_ hres.2.2.2.1
            rw [hm3]
            omega
          · refine le_trans ?_ hres.2.2.2.2
            rw [hm4]
            omega
        case _ st3 e heq => exact absurd h (by simp)
      case _ gb gst e hgrow => exact absurd h (by simp)


/-! canvas composition lemmas -/

theorem setPix_rect (cv : Img) (x y : Int) (c : Color) :
    (setPix cv x y c).rect = cv.rect := by
  unfold setPix
  split_ifs <;> rfl

theorem setPix_pix_hit {cv : Img} {x y : Int} {c : Color} (h : cv.rect.memP x y) :
    (setPix cv x y c).pix x y = c := by
  unfold setPix
  rw [if_pos h]
  simp

theorem setPix_pix_miss {cv : Img} {x y a b2 : Int} {c : Color}
    (h : ¬(a = x ∧ b2 = y)) :
    (setPix cv x y c).pix a b2 = cv.pix a b2 := by
  unfold setPix
  split_ifs with hm
  · simp only
    rw [if_neg h]
  · rfl

theorem foldl_col_rect (v : Nat → Color) (xv minY : Int) :
    ∀ (ys : List Nat) (cv : Img),
      ((ys.foldl (fun cv2 (y : Nat) => setPix cv2 xv ((y : Int) + minY) (v y)) cv)).rect =
        cv.rect := by
  intro ys
  induction ys with
  | nil => intro cv; rfl
  | cons y ys ih =>
    intro cv
    rw [List.foldl_cons, ih, setPix_rect]

theorem foldl_col_miss (v : Nat → Color) (xv minY : Int) {a b2 : Int} :
    ∀ (ys : List Nat) (cv : Img),
      (∀ y ∈ ys, ¬(a = xv ∧ b2 = (y : Int) + minY)) →
      ((ys.foldl (fun cv2 (y : Nat) => setPix cv2 xv ((y : Int) + minY) (v y)) cv)).pix a b2 =
        cv.pix a b2 := by
  intro ys
  induction ys with
  | nil => intro cv _; rfl
  | cons y ys ih =>
    intro cv hmiss
    rw [List.foldl_cons,
      ih _ (fun y2 hy2 => hmiss y2 (List.mem_cons_of_mem _ hy2)),
      setPix_pix_miss (hmiss y (List.mem_cons_self _ _))]

theorem foldl_col_hit (v : Nat → Color) (xv minY : Int) {y0 : Nat} :
    ∀ (ys : List Nat) (cv : Img), ys.Nodup → y0 ∈ ys →
      cv.rect.memP xv ((y0 : Int) + minY) →
      ((ys.foldl (fun cv2 (y : Nat) => setPix cv2 xv ((y : Int) + minY) (v y)) cv)).pix
        xv ((y0 : Int) + minY) = v y0 := by
  intro ys
  induction ys with
  | nil => intro cv _ h; simp at h
  | cons y ys ih =>
    intro cv hnd hmem hrect
    rw [List.foldl_cons]
    rw [List.nodup_cons] at hnd
    rcases List.mem_cons.mp hmem with rfl | hm
    · rw [foldl_col_miss]
      · exact setPix_pix_hit hrect
      · intro y2 hy2 hc
        have he : (y0 : Int) = (y2 : Int) := by omega
        have he2 : y0 = y2 := by exact_mod_cast he
        exact hnd.1 (he2 ▸ hy2)
    · rw [ih _ hnd.2 hm (by rw [setPix_rect]; exact hrect)]

theorem foldl_pix_pres {α : Type} (f : Img → α → Img) (a b2 : Int) :
    ∀ (l : List α) (cv : Img),
      (∀ cv2 x, x ∈ l → (f cv2 x).pix a b2 = cv2.pix a b2) →
      (l.foldl f cv).pix a b2 = cv.pix a b2 := by
  intro l
  induction l with
  | nil => intro cv _; rfl
  | cons x l ih =>
    intro cv hp
    rw [List.foldl_cons,
      ih _ (fun cv2 x2 hx2 => hp cv2 x2 (List.mem_cons_of_mem _ hx2)),
      hp cv x (List.mem_cons_self _ _)]

theorem foldl_outer_hit (minX minY : Int) (dyn : Nat) (v : Nat → Nat → Color)
    {x0 y0 : Nat} (hy0 : y0 < dyn) :
    ∀ (xs : List Nat) (cv : Img), xs.Nodup → x0 ∈ xs →
      cv.rect.memP ((x0 : Int) + minX) ((y0 : Int) + minY) →
      ((xs.foldl (fun cv1 (x : Nat) => (List.range dyn).foldl
          (fun cv2 (y : Nat) => setPix cv2 ((x : Int) + minX) ((y : Int) + minY) (v x y))
          cv1) cv)).pix ((x0 : Int) + minX) ((y0 : Int) + minY) = v x0 y0 := by
  intro xs
  induction xs with
  | nil => intro cv _ h; simp at h
  | cons x xs ih =>
    intro cv hnd hmem hrect
    rw [List.foldl_cons]
    rw [List.nodup_cons] at hnd
    rcases List.mem_cons.mp hmem with rfl | hm
    · rw [foldl_pix_pres _ _ _ xs _ ?steps]
      · exact foldl_col_hit (v x0) _ minY _ cv (List.nodup_range dyn)
          (List.mem_range.mpr hy0) hrect
      case steps =>
        intro cv2 x2 hx2
        apply foldl_col_miss
        intro y2 _ hc
        obtain ⟨he, -⟩ := hc
        have he2 : x0 = x2 := by omega
        exact hnd.1 (he2 ▸ hx2)
    · exact ih _ hnd.2 hm
        (by rw [foldl_col_rect (v x) ((x : Int) + minX) minY _ cv]; exact hrect)


theorem writeImg_rect (cv : Img) (r : Rect) (pic : Img) :
    (writeImg cv r pic).rect = cv.rect := by
  unfold writeImg
  generalize List.range pic.rect.dx.toNat = xs
  induction xs generalizing cv with
  | nil => rfl
  | cons x xs ih =>
    rw [List.foldl_cons, ih, foldl_col_rect]

theorem writeImg_pix_miss {cv : Img} {r : Rect} {pic : Img} {a b2 : Int}
    (hdx : r.dx = pic.rect.dx) (hdy : r.dy = pic.rect.dy)
    (hmiss : ¬ r.memP a b2) :
    (writeImg cv r pic).pix a b2 = cv.pix a b2 := by
  unfold writeImg
  apply foldl_pix_pres
  intro cv2 x hx
  apply foldl_col_miss
  intro y hy hc
  obtain ⟨ha, hb⟩ := hc
  rw [List.mem_range] at hx hy
  apply hmiss
  unfold Rect.memP
  simp only [Rect.dx, Rect.dy] at hdx hdy hx hy
  omega

theorem writeImg_pix_hit {cv : Img} {r : Rect} {pic : Img} {x y : Int}
    (hdx : r.dx = pic.rect.dx) (hdy : r.dy = pic.rect.dy)
    (hx0 : 0 ≤ x) (hx : x < pic.rect.dx) (hy0 : 0 ≤ y) (hy : y < pic.rect.dy)
    (hmem : cv.rect.memP (x + r.minX) (y + r.minY)) :
    (writeImg cv r pic).pix (x + r.minX) (y + r.minY) = pic.At x y := by
  unfold writeImg
  have hxe : ((x.toNat : Int)) = x := Int.toNat_of_nonneg hx0
  have hye : ((y.toNat : Int)) = y := Int.toNat_of_nonneg hy0
  rw [← hxe, ← hye] at hmem ⊢
  exact foldl_outer_hit r.minX r.minY pic.rect.dy.toNat
    (fun x2 y2 => pic.At (x2 : Int) (y2 : Int)) (by omega)
    (List.range pic.rect.dx.toNat) cv (List.nodup_range _)
    (List.mem_range.mpr (by omega)) hmem

theorem compose_fold_rect (rs : List (Int × Rect)) :
    ∀ (ims : List (Int × Img)) (cv : Img),
      ((ims.foldl (fun cv2 p =>
        writeImg cv2 ((lookupA rs p.1).getD (rect 0 0 0 0)) p.2) cv)).rect =
        cv.rect := by
  intro ims
  induction ims with
  | nil => intro cv; rfl
  | cons p ims ih =>
    intro cv
    rw [List.foldl_cons, ih, writeImg_rect]

theorem compose_rect (b : Rect) (ims : List (Int × Img)) (rs : List (Int × Rect)) :
    (compose b ims rs).rect = b := by
  unfold compose
  rw [compose_fold_rect]
  rfl

theorem compose_fold_pix {b : Rect} {rs : List (Int × Rect)} :
    ∀ (ims : List (Int × Img)) (cv : Img),
      cv.rect = b →
      ((ims.map Prod.fst).Nodup) →
      (∀ pr ∈ ims, ∃ r2, lookupA rs pr.1 = some r2 ∧
         r2.dx = pr.2.rect.dx ∧ r2.dy = pr.2.rect.dy ∧ subR r2 b) →
      (ims.map Prod.fst).Pairwise (fun i j => ∀ ri rj, lookupA rs i = some ri →
         lookupA rs j = some rj → disjR ri rj) →
      ∀ (id0 : Int) (pic0 : Img) (r : Rect), (id0, pic0) ∈ ims →
        lookupA rs id0 = some r →
      ∀ (x y : Int), 0 ≤ x → x < pic0.rect.dx → 0 ≤ y → y < pic0.rect.dy →
      ((ims.foldl (fun cv2 p =>
          writeImg cv2 ((lookupA rs p.1).getD (rect 0 0 0 0)) p.2) cv)).pix
        (x + r.minX) (y + r.minY) = pic0.At x y := by
  intro ims
  induction ims with
  | nil =>
    intro cv _ _ _ _ id0 pic0 r hmem
    simp at hmem
  | cons p ims ih =>
    intro cv hcv hnd hmatch hpw id0 pic0 r hmem hr x y hx0 hx hy0 hy
    rw [List.foldl_cons]
    rw [List.map_cons, List.nodup_cons] at hnd
    rw [List.map_cons, List.pairwise_cons] at hpw
    rcases List.mem_cons.mp hmem with he | hmtail
    · obtain ⟨pid, ppic⟩ := p
      rw [Prod.mk.injEq] at he
      obtain ⟨he1, he2⟩ := he
      subst he1
      subst he2
      obtain ⟨rp, hrp, hrpdx, hrpdy, hrpsub⟩ :=
        hmatch (id0, pic0) (List.mem_cons_self _ _)
      simp only at hrp hrpdx hrpdy
      have hre : rp = r := by
        have := hrp.symm.trans hr
        rw [Option.some.injEq] at this
        exact this
      subst hre
      have hmemr : rp.memP (x + rp.minX) (y + rp.minY) := by
        unfold Rect.memP
        simp only [Rect.dx, Rect.dy] at hrpdx hrpdy hx hy
        omega
      rw [foldl_pix_pres _ _ _ ims _ ?pres]
      · simp only [hr, Option.getD_some]
        exact writeImg_pix_hit hrpdx hrpdy hx0 hx hy0 hy
          (by rw [hcv]; exact hrpsub _ _ hmemr)
      case pres =>
        intro cv2 p2 hp2
        obtain ⟨r2, hr2, hr2dx, hr2dy, hr2sub⟩ :=
          hmatch p2 (List.mem_cons_of_mem _ hp2)
        rw [hr2, Option.getD_some]
        apply writeImg_pix_miss hr2dx hr2dy
        intro hc
        exact (hpw.1 p2.1 (List.mem_map_of_mem Prod.fst hp2) rp r2 hr hr2)
          (x + rp.minX) (y + rp.minY) hmemr hc
    · exact ih _ (by rw [writeImg_rect]; exact hcv) hnd.2
        (fun pr hpr => hmatch pr (List.mem_cons_of_mem _ hpr)) hpw.2
        id0 pic0 r hmtail hr x y hx0 hx hy0 hy

theorem compose_pix {b : Rect} {rs : List (Int × Rect)}
    {ims : List (Int × Img)}
    (hnd : (ims.map Prod.fst).Nodup)
    (hmatch : ∀ pr ∈ ims, ∃ r2, lookupA rs pr.1 = some r2 ∧
       r2.dx = pr.2.rect.dx ∧ r2.dy = pr.2.rect.dy ∧ subR r2 b)
    (hpw : (ims.map Prod.fst).Pairwise (fun i j => ∀ ri rj,
       lookupA rs i = some ri → lookupA rs j = some rj → disjR ri rj))
    {id0 : Int} {pic0 : Img} {r : Rect} (hmem : (id0, pic0) ∈ ims)
    (hr : lookupA rs id0 = some r)
    {x y : Int} (hx0 : 0 ≤ x) (hx : x < pic0.rect.dx)
    (hy0 : 0 ≤ y) (hy : y < pic0.rect.dy) :
    (compose b ims rs).pix (x + r.minX) (y + r.minY) = pic0.At x y := by
  unfold compose
  exact compose_fold_pix ims (newCanvas b) rfl hnd hmatch hpw
    id0 pic0 r hmem hr x y hx0 hx hy0 hy


/-! top-level glue: a freshly constructed packer -/

theorem insertList_fields (p : Packer) (q : List (Int × Img)) :
    (insertList p q).queued =
      p.queued ++ q.map (fun pr => (⟨pr.1, pr.2⟩ : QueuedData)) ∧
    (insertList p q).packed = p.packed ∧
    (insertList p q).bounds = p.bounds ∧
    (insertList p q).emptySpaces = p.emptySpaces ∧
    (insertList p q).rects = p.rects ∧
    (insertList p q).images = p.images := by
  induction q generalizing p with
  | nil => simp [insertList]
  | cons pr q ih =>
    have he : insertList p (pr :: q) = insertList (p.Insert pr.1 pr.2) q := rfl
    rw [he]
    obtain ⟨a1, a2, a3, a4, a5, a6⟩ := ih (p.Insert pr.1 pr.2)
    refine ⟨?_, ?_, ?_, ?_, ?_, ?_⟩
    · rw [a1]; simp [Packer.Insert]
    · rw [a2]; rfl
    · rw [a3]; rfl
    · rw [a4]; rfl
    · rw [a5]; rfl
    · rw [a6]; rfl

theorem LoopInv_init : LoopInv [] (rect 0 0 0 0) ⟨[], [], []⟩ := by
  constructor
  · decide
  · simp [keysOf]
  · intro pr hpr; simp at hpr
  · simp
  · constructor
    · intro s hs; simp at hs
    · intro s hs; simp at hs
    · intro r hr; simp at hr
    · simp
    · simp
    · intro s hs; simp at hs


theorem Pack_fresh (cfg : PackerCfg) (q : List (Int × Img)) {b : Rect} {st : InsSt}
    (hres : packLoopG (sortQueue (qdOf q)) [] (rect 0 0 0 0) ⟨[], [], []⟩ =
      (b, st, none)) :
    (insertList (Packer.new cfg) q).Pack =
      ({ insertList (Packer.new cfg) q with
          queued := [], bounds := b, emptySpaces := [],
          rects := st.rects, images := [],
          pic := compose b st.images st.rects, packed := true }, none) := by
  obtain ⟨hq, hp, hb, hsp, hr, hi⟩ := insertList_fields (Packer.new cfg) q
  unfold Packer.Pack
  rw [if_neg (by rw [hp]; simp [Packer.new])]
  have hqueued : sortQueue (insertList (Packer.new cfg) q).queued =
      sortQueue (qdOf q) := by
    rw [hq]
    simp [Packer.new, qdOf]
  have hstinit : (⟨(insertList (Packer.new cfg) q).emptySpaces,
      (insertList (Packer.new cfg) q).rects,
      (insertList (Packer.new cfg) q).images⟩ : InsSt) = ⟨[], [], []⟩ := by
    rw [hsp, hr, hi]
    simp [Packer.new]
  have hbinit : (insertList (Packer.new cfg) q).bounds = rect 0 0 0 0 := by
    rw [hb]
    simp [Packer.new]
  simp only [hqueued, hstinit, hbinit, hres]

theorem Pack_fresh_ok (cfg : PackerCfg) (q : List (Int × Img))
    (hok : ((insertList (Packer.new cfg) q).Pack).2 = none) :
    ∃ b st, packLoopG (sortQueue (qdOf q)) [] (rect 0 0 0 0) ⟨[], [], []⟩ =
      (b, st, none) := by
  rcases hres : packLoopG (sortQueue (qdOf q)) [] (rect 0 0 0 0) ⟨[], [], []⟩ with
    ⟨b, st, e⟩
  cases e with
  | none => exact ⟨b, st, rfl⟩
  | some e2 =>
    exfalso
    obtain ⟨hq, hp, hb, hsp, hr, hi⟩ := insertList_fields (Packer.new cfg) q
    unfold Packer.Pack at hok
    rw [if_neg (by rw [hp]; simp [Packer.new])] at hok
    have hqueued : sortQueue (insertList (Packer.new cfg) q).queued =
        sortQueue (qdOf q) := by
      rw [hq]
      simp [Packer.new, qdOf]
    have hstinit : (⟨(insertList (Packer.new cfg) q).emptySpaces,
        (insertList (Packer.new cfg) q).rects,
        (insertList (Packer.new cfg) q).images⟩ : InsSt) = ⟨[], [], []⟩ := by
      rw [hsp, hr, hi]
      simp [Packer.new]
    have hbinit : (insertList (Packer.new cfg) q).bounds = rect 0 0 0 0 := by
      rw [hb]
      simp [Packer.new]
    simp only [hqueued, hstinit, hbinit, hres] at hok
    simp at hok

theorem qdOf_ids (q : List (Int × Img)) :
    (qdOf q).map QueuedData.id = q.map Prod.fst := by
  unfold qdOf
  rw [List.map_map]
  rfl

theorem sorted_nodup {q : List (Int × Img)} (hnd : (q.map Prod.fst).Nodup) :
    ((sortQueue (qdOf q)).map QueuedData.id).Nodup := by
  have hperm := (sortQueue_perm (qdOf q)).map QueuedData.id
  rw [hperm.nodup_iff, qdOf_ids]
  exact hnd

theorem sorted_canon {q : List (Int × Img)}
    (hcan : ∀ pr ∈ q, canon pr.2.rect) :
    ∀ d ∈ sortQueue (qdOf q), canon d.pic.rect := by
  intro d hd
  have := (sortQueue_perm (qdOf q)).mem_iff.mp hd
  unfold qdOf at this
  rw [List.mem_map] at this
  obtain ⟨pr, hpr, rfl⟩ := this
  exact hcan pr hpr


/-- C1: after a successful Pack on a freshly built packer whose queued
items have pairwise distinct ids, the rectangles recorded in the placement
map are pairwise disjoint and every placed rectangle is contained in the
final canvas bounds. -/
theorem pack_no_overlap (cfg : PackerCfg) (q : List (Int × Img))
    (hnd : (q.map Prod.fst).Nodup)
    (hcan : ∀ pr ∈ q, canon pr.2.rect)
    (hok : ((insertList (Packer.new cfg) q).Pack).2 = none) :
    (∀ i j ri rj, i ≠ j →
        lookupA (((insertList (Packer.new cfg) q).Pack).1.rects) i = some ri →
        lookupA (((insertList (Packer.new cfg) q).Pack).1.rects) j = some rj →
        disjR ri rj) ∧
    (∀ i ri,
        lookupA (((insertList (Packer.new cfg) q).Pack).1.rects) i = some ri →
        subR ri (((insertList (Packer.new cfg) q).Pack).1.bounds)) := by
  obtain ⟨b, st, hres⟩ := Pack_fresh_ok cfg q hok
  have hpack := Pack_fresh cfg q hres
  have hinv := packLoopG_inv (sortQueue (qdOf q)) [] (rect 0 0 0 0) ⟨[], [], []⟩
    b st (by simpa using sorted_nodup hnd) (by simpa using sorted_canon hcan)
    LoopInv_init hres
  have hLI := hinv.1
  have hrects : ((insertList (Packer.new cfg) q).Pack).1.rects = st.rects := by
    rw [hpack]
  have hbounds : ((insertList (Packer.new cfg) q).Pack).1.bounds = b := by
    rw [hpack]
  rw [hrects, hbounds]
  have hkeysnd : (keysOf st.rects).Nodup := by
    have hk := hLI.rKeys
    rw [hk]
    simpa using List.nodup_reverse.mpr (sorted_nodup hnd)
  constructor
  · intro i j ri rj hne hi hj
    exact lookupA_pairwise_disj hkeysnd hLI.pool.plDisj hne hi hj
  · intro i ri hi
    exact hLI.pool.plSub ri (lookupA_val_mem hi)

/-- Witness for C1: two distinct solid images packed together. -/
theorem pack_no_overlap_witness :
    (∀ i j ri rj, i ≠ j →
        lookupA (((insertList (Packer.new ⟨0⟩)
          [(0, ⟨rect 0 0 1 1, fun _ _ => zeroColor⟩),
           (1, ⟨rect 0 0 2 1, fun _ _ => zeroColor⟩)]).Pack).1.rects) i = some ri →
        lookupA (((insertList (Packer.new ⟨0⟩)
          [(0, ⟨rect 0 0 1 1, fun _ _ => zeroColor⟩),
           (1, ⟨rect 0 0 2 1, fun _ _ => zeroColor⟩)]).Pack).1.rects) j = some rj →
        disjR ri rj) ∧
    (∀ i ri,
        lookupA (((insertList (Packer.new ⟨0⟩)
          [(0, ⟨rect 0 0 1 1, fun _ _ => zeroColor⟩),
           (1, ⟨rect 0 0 2 1, fun _ _ => zeroColor⟩)]).Pack).1.rects) i = some ri →
        subR ri (((insertList (Packer.new ⟨0⟩)
          [(0, ⟨rect 0 0 1 1, fun _ _ => zeroColor⟩),
           (1, ⟨rect 0 0 2 1, fun _ _ => zeroColor⟩)]).Pack).1.bounds)) :=
  pack_no_overlap ⟨0⟩
    [(0, ⟨rect 0 0 1 1, fun _ _ => zeroColor⟩),
     (1, ⟨rect 0 0 2 1, fun _ _ => zeroColor⟩)]
    (by decide)
    (by
      intro pr hpr
      rcases List.mem_cons.mp hpr with rfl | hpr2
      · decide
      rcases List.mem_cons.mp hpr2 with rfl | hpr3
      · decide
      · simp at hpr3)
    (by rfl)


/-- C8: after a successful Pack, any further Pack on the same instance
fails with the already-packed error and returns the packer unchanged
(placement map and canvas included). -/
theorem pack_twice_alreadyPacked (p : Packer) (hok : (p.Pack).2 = none) :
    ((p.Pack).1).Pack = ((p.Pack).1, some .alreadyPacked) := by
  by_cases hp : p.packed
  · exfalso
    unfold Packer.Pack at hok
    rw [if_pos hp] at hok
    simp at hok
  · have h1 : ((p.Pack).1).packed = true := by
      unfold Packer.Pack at hok ⊢
      rw [if_neg hp] at hok ⊢
      rcases hres : packLoopG (sortQueue p.queued) [] p.bounds
        ⟨p.emptySpaces, p.rects, p.images⟩ with ⟨b, st, e⟩
      simp only [hres] at hok ⊢
      cases e with
      | some e2 => simp at hok
      | none => rfl
    have hgen : ∀ p2 : Packer, p2.packed = true →
        p2.Pack = (p2, some .alreadyPacked) := by
      intro p2 h2
      unfold Packer.Pack
      rw [if_pos h2]
    exact hgen _ h1

/-- Witness for C8: packing an empty fresh packer succeeds, and a second
Pack returns the already-packed error. -/
theorem pack_twice_alreadyPacked_witness :
    (((Packer.new ⟨0⟩).Pack).1).Pack =
      (((Packer.new ⟨0⟩).Pack).1, some .alreadyPacked) :=
  pack_twice_alreadyPacked (Packer.new ⟨0⟩) (by rfl)

theorem composeOld_flags (f1 f2 : Nat) (b : Rect) (ims : List (Int × Img))
    (rs : List (Int × Rect)) :
    Old.composeOld f1 b ims rs = Old.composeOld f2 b ims rs := by
  unfold Old.composeOld Old.writeImgOld
  simp only [ite_self]

/-- C9: in the earlier interface revision, the result of Pack is identical
for every value of the pack-flags argument; the orientation (InsertFlipped)
flag is a no-op because both arms of its test read the same source pixel. -/
theorem oldPack_flags_inert (p : Old.Packer) (f1 f2 : Nat) :
    Old.Packer.Pack p f1 = Old.Packer.Pack p f2 := by
  unfold Old.Packer.Pack
  rcases hres : Old.packLoop p.flags (sortQueue p.queued) [] p.bounds
    ⟨p.emptySpaces, p.rects, p.images⟩ with ⟨b, st, e⟩
  cases e with
  | some e2 => simp only [hres]
  | none =>
    simp only [hres]
    rw [composeOld_flags f1 f2 b st.images st.rects]

/-- C2: in the earlier revision, when the packing loop reaches a queued
item for which no free rectangle fits and the AllowGrowth construction
flag is not set, it stops with the no-empty-space error, leaving the
bounds as they were (no growth). -/
theorem oldPack_noEmptySpace (cf : Nat) (d : QueuedData)
    (rest done : List QueuedData) (b : Rect) (st : InsSt)
    (hflag : cf &&& Old.AllowGrowth = 0)
    (hnofit : find st.spaces d.pic.rect = none) :
    Old.packLoop cf (d :: rest) done b st = (b, st, some .noEmptySpace) := by
  unfold Old.packLoop
  rw [hnofit]
  simp [hflag]

/-- Witness for C2: a 4x4 image cannot fit the single 2x2 free space and
growth is disabled. -/
theorem oldPack_noEmptySpace_witness :
    Old.packLoop 0 [⟨0, ⟨rect 0 0 4 4, fun _ _ => zeroColor⟩⟩] []
      (rect 0 0 2 2) ⟨[rect 0 0 2 2], [], []⟩ =
      (rect 0 0 2 2, ⟨[rect 0 0 2 2], [], []⟩, some .noEmptySpace) :=
  oldPack_noEmptySpace 0 ⟨0, ⟨rect 0 0 4 4, fun _ _ => zeroColor⟩⟩ [] []
    (rect 0 0 2 2) ⟨[rect 0 0 2 2], [], []⟩ (by decide) (by decide)

/-! the placed-pixel characterization shared by the round-trip claims -/

theorem pack_entry_pix (cfg : PackerCfg) (q : List (Int × Img))
    (id0 : Int) (pic0 : Img)
    (hnd : (q.map Prod.fst).Nodup)
    (hcan : ∀ pr ∈ q, canon pr.2.rect)
    (hmem : (id0, pic0) ∈ q)
    (hok : ((insertList (Packer.new cfg) q).Pack).2 = none) :
    ∃ r, lookupA (((insertList (Packer.new cfg) q).Pack).1.rects) id0 = some r ∧
      r.dx = pic0.rect.dx ∧ r.dy = pic0.rect.dy ∧
      ∀ x y : Int, 0 ≤ x → x < pic0.rect.dx → 0 ≤ y → y < pic0.rect.dy →
        (((insertList (Packer.new cfg) q).Pack).1.pic).pix (x + r.minX) (y + r.minY) =
          pic0.At x y := by
  obtain ⟨b, st, hres⟩ := Pack_fresh_ok cfg q hok
  have hpack := Pack_fresh cfg q hres
  have hinv := packLoopG_inv (sortQueue (qdOf q)) [] (rect 0 0 0 0) ⟨[], [], []⟩
    b st (by simpa using sorted_nodup hnd) (by simpa using sorted_canon hcan)
    LoopInv_init hres
  have hLI := hinv.1
  have hndids : ((sortQueue (qdOf q)).map QueuedData.id).Nodup := sorted_nodup hnd
  have hmemd : (⟨id0, pic0⟩ : QueuedData) ∈ sortQueue (qdOf q) := by
    rw [(sortQueue_perm (qdOf q)).mem_iff]
    unfold qdOf
    exact List.mem_map_of_mem _ hmem
  have hrkeys : keysOf st.rects = ((sortQueue (qdOf q)).map QueuedData.id).reverse := by
    have := hLI.rKeys
    simpa using this
  have hrkeysnd : (keysOf st.rects).Nodup := by
    rw [hrkeys]
    exact List.nodup_reverse.mpr hndids
  have himgs : st.images =
      ((sortQueue (qdOf q)).map (fun d => (d.id, d.pic))).reverse := by
    have := hLI.iShape
    simpa using this
  have hdims : ∀ pr ∈ st.rects, ∃ d ∈ sortQueue (qdOf q), pr.1 = d.id ∧
      pr.2.dx = d.pic.rect.dx ∧ pr.2.dy = d.pic.rect.dy := by
    intro pr hpr
    have := hLI.rDims pr hpr
    simpa using this
  have hinj : ∀ x ∈ sortQueue (qdOf q), ∀ y ∈ sortQueue (qdOf q),
      x.id = y.id → x = y := fun x hx y hy he =>
    List.inj_on_of_nodup_map hndids hx hy he
  -- lookup for any queued member, with matching dimensions
  have hlook : ∀ d ∈ sortQueue (qdOf q), ∃ r2, lookupA st.rects d.id = some r2 ∧
      r2.dx = d.pic.rect.dx ∧ r2.dy = d.pic.rect.dy := by
    intro d hd
    have hmemk : d.id ∈ keysOf st.rects := by
      rw [hrkeys, List.mem_reverse]
      exact List.mem_map_of_mem QueuedData.id hd
    obtain ⟨r2, hr2⟩ := lookupA_isSome_of_mem_keys hmemk
    obtain ⟨d2, hd2, he1, he2, he3⟩ := hdims (d.id, r2) (lookupA_mem hr2)
    have : d2 = d := hinj d2 hd2 d hd (by simpa using he1.symm)
    subst this
    exact ⟨r2, hr2, he2, he3⟩
  obtain ⟨r, hr, hrdx, hrdy⟩ := hlook ⟨id0, pic0⟩ hmemd
  have hrectsP : ((insertList (Packer.new cfg) q).Pack).1.rects = st.rects := by
    rw [hpack]
  have hpicP : ((insertList (Packer.new cfg) q).Pack).1.pic =
      compose b st.images st.rects := by
    rw [hpack]
  refine ⟨r, by rw [hrectsP]; exact hr, hrdx, hrdy, ?_⟩
  intro x y hx0 hx hy0 hy
  rw [hpicP]
  have hndim : (st.images.map Prod.fst).Nodup := by
    have : st.images.map Prod.fst = keysOf st.images := rfl
    rw [this, himgs, keysOf_pairs_reverse]
    exact List.nodup_reverse.mpr hndids
  have hmatch : ∀ pr ∈ st.images, ∃ r2, lookupA st.rects pr.1 = some r2 ∧
      r2.dx = pr.2.rect.dx ∧ r2.dy = pr.2.rect.dy ∧ subR r2 b := by
    intro pr hpr
    rw [himgs, List.mem_reverse, List.mem_map] at hpr
    obtain ⟨d, hd, rfl⟩ := hpr
    obtain ⟨r2, hr2, he2, he3⟩ := hlook d hd
    exact ⟨r2, hr2, he2, he3, hLI.pool.plSub r2 (lookupA_val_mem hr2)⟩
  have hpw : (st.images.map Prod.fst).Pairwise (fun i j => ∀ ri rj,
      lookupA st.rects i = some ri → lookupA st.rects j = some rj →
      disjR ri rj) := by
    refine List.Pairwise.imp ?_ hndim
    intro i j hne ri rj hi hj
    exact lookupA_pairwise_disj hrkeysnd hLI.pool.plDisj hne hi hj
  have hpair : (id0, pic0) ∈ st.images := by
    rw [himgs, List.mem_reverse]
    exact List.mem_map_of_mem (fun d => (d.id, d.pic)) hmemd
  exact compose_pix hndim hmatch hpw hpair hr hx0 hx hy0 hy


/-- C10: Pack places a queued image by its width and height at a
free-space origin, but copies pixel content by reading the source at the
absolute coordinates (x, y) for 0 <= x < Dx, 0 <= y < Dy (not at
(Min.X + x, Min.Y + y)); reads outside the source bounds yield the zero
color, so the placed content matches the source only when the source
bounds start at the origin. -/
theorem pack_copies_absolute (cfg : PackerCfg) (q : List (Int × Img))
    (id0 : Int) (pic0 : Img)
    (hnd : (q.map Prod.fst).Nodup)
    (hcan : ∀ pr ∈ q, canon pr.2.rect)
    (hmem : (id0, pic0) ∈ q)
    (hok : ((insertList (Packer.new cfg) q).Pack).2 = none) :
    ∃ r, lookupA (((insertList (Packer.new cfg) q).Pack).1.rects) id0 = some r ∧
      r.dx = pic0.rect.dx ∧ r.dy = pic0.rect.dy ∧
      (∀ x y : Int, 0 ≤ x → x < pic0.rect.dx → 0 ≤ y → y < pic0.rect.dy →
        (((insertList (Packer.new cfg) q).Pack).1.pic).pix
          (x + r.minX) (y + r.minY) = pic0.At x y) ∧
      (∀ x y : Int, ¬ pic0.rect.memP x y → pic0.At x y = zeroColor) := by
  obtain ⟨r, h1, h2, h3, h4⟩ := pack_entry_pix cfg q id0 pic0 hnd hcan hmem hok
  refine ⟨r, h1, h2, h3, h4, ?_⟩
  intro x y hm
  unfold Img.At
  rw [if_neg hm]

/-- Witness for C10: one queued image whose bounds start at (1, 1). -/
theorem pack_copies_absolute_witness :
    ∃ r, lookupA (((insertList (Packer.new ⟨0⟩)
        [(7, ⟨⟨1, 1, 3, 3⟩, fun _ _ => zeroColor⟩)]).Pack).1.rects) 7 = some r ∧
      r.dx = (Img.mk ⟨1, 1, 3, 3⟩ (fun _ _ => zeroColor)).rect.dx ∧
      r.dy = (Img.mk ⟨1, 1, 3, 3⟩ (fun _ _ => zeroColor)).rect.dy ∧
      (∀ x y : Int, 0 ≤ x → x < (Img.mk ⟨1, 1, 3, 3⟩ (fun _ _ => zeroColor)).rect.dx →
        0 ≤ y → y < (Img.mk ⟨1, 1, 3, 3⟩ (fun _ _ => zeroColor)).rect.dy →
        (((insertList (Packer.new ⟨0⟩)
          [(7, ⟨⟨1, 1, 3, 3⟩, fun _ _ => zeroColor⟩)]).Pack).1.pic).pix
          (x + r.minX) (y + r.minY) =
          (Img.mk ⟨1, 1, 3, 3⟩ (fun _ _ => zeroColor)).At x y) ∧
      (∀ x y : Int, ¬ (Img.mk ⟨1, 1, 3, 3⟩ (fun _ _ => zeroColor)).rect.memP x y →
        (Img.mk ⟨1, 1, 3, 3⟩ (fun _ _ => zeroColor)).At x y = zeroColor) :=
  pack_copies_absolute ⟨0⟩ [(7, ⟨⟨1, 1, 3, 3⟩, fun _ _ => zeroColor⟩)] 7
    (Img.mk ⟨1, 1, 3, 3⟩ (fun _ _ => zeroColor))
    (by decide)
    (by
      intro pr hpr
      rw [List.mem_singleton] at hpr
      subst hpr
      decide)
    (List.mem_singleton.mpr rfl)
    (by rfl)

/-- C7: for an id whose queued image is a solid-color image of size w by h
with bounds at the origin, after a successful Pack with pairwise-distinct
ids, SubImage returns an image of exactly that size in which every pixel
equals that color. -/
theorem subImage_solid (cfg : PackerCfg) (q : List (Int × Img))
    (w h : Int) (c : Color) (id0 : Int)
    (hw : 0 ≤ w) (hh : 0 ≤ h)
    (hnd : (q.map Prod.fst).Nodup)
    (hcan : ∀ pr ∈ q, canon pr.2.rect)
    (hmem : (id0, (⟨rect 0 0 w h, fun _ _ => c⟩ : Img)) ∈ q)
    (hok : ((insertList (Packer.new cfg) q).Pack).2 = none) :
    ∃ sub, ((insertList (Packer.new cfg) q).Pack).1.SubImage id0 = some sub ∧
      sub.rect = rect 0 0 w h ∧
      ∀ x y : Int, 0 ≤ x → x < w → 0 ≤ y → y < h → sub.At x y = c := by
  obtain ⟨r, h1, h2, h3, h4⟩ := pack_entry_pix cfg q id0
    (⟨rect 0 0 w h, fun _ _ => c⟩ : Img) hnd hcan hmem hok
  have hpacked : ((insertList (Packer.new cfg) q).Pack).1.packed = true := by
    obtain ⟨b, st, hres⟩ := Pack_fresh_ok cfg q hok
    rw [Pack_fresh cfg q hres]
  have hGet : ((insertList (Packer.new cfg) q).Pack).1.Get id0 = some r := by
    unfold Packer.Get
    rw [hpacked, h1]
    simp
  have hdx : r.dx = w := by
    rw [h2]
    exact dx_rect hw hh
  have hdy : r.dy = h := by
    rw [h3]
    exact dy_rect hw hh
  refine ⟨⟨rect 0 0 r.dx r.dy,
    fun x y => (((insertList (Packer.new cfg) q).Pack).1.pic).pix
      (x + r.minX) (y + r.minY)⟩, ?_, ?_, ?_⟩
  · unfold Packer.SubImage
    rw [hpacked, hGet]
    simp
  · rw [hdx, hdy]
  · intro x y hx0 hx hy0 hy
    unfold Img.At
    rw [if_pos (by rw [hdx, hdy, memP_rect hw hh]; omega)]
    simp only
    have hxd : x < (⟨rect 0 0 w h, fun _ _ => c⟩ : Img).rect.dx := by
      rw [show (⟨rect 0 0 w h, fun _ _ => c⟩ : Img).rect.dx = w from dx_rect hw hh]
      exact hx
    have hyd : y < (⟨rect 0 0 w h, fun _ _ => c⟩ : Img).rect.dy := by
      rw [show (⟨rect 0 0 w h, fun _ _ => c⟩ : Img).rect.dy = h from dy_rect hw hh]
      exact hy
    rw [h4 x y hx0 hxd hy0 hyd]
    unfold Img.At
    rw [if_pos (by rw [memP_rect hw hh]; omega)]

/-- Witness for C7: a solid 2 by 1 image round-trips through SubImage. -/
theorem subImage_solid_witness :
    ∃ sub, ((insertList (Packer.new ⟨0⟩)
        [(5, ⟨rect 0 0 2 1, fun _ _ => (⟨1, 2, 3, 4⟩ : Color)⟩)]).Pack).1.SubImage 5 =
        some sub ∧
      sub.rect = rect 0 0 2 1 ∧
      ∀ x y : Int, 0 ≤ x → x < 2 → 0 ≤ y → y < 1 →
        sub.At x y = (⟨1, 2, 3, 4⟩ : Color) :=
  subImage_solid ⟨0⟩ [(5, ⟨rect 0 0 2 1, fun _ _ => (⟨1, 2, 3, 4⟩ : Color)⟩)]
    2 1 ⟨1, 2, 3, 4⟩ 5 (by decide) (by decide) (by decide)
    (by
      intro pr hpr
      rw [List.mem_singleton] at hpr
      subst hpr
      decide)
    (List.mem_singleton.mpr rfl)
    (by rfl)


/-! growth monotonicity, also on failing runs -/

theorem growBounds_canon {b : Rect} {gw gh : Int}
    (hb : canon b) (hgw : 0 ≤ gw) (hgh : 0 ≤ gh) :
    canon (growBounds b gw gh) := by
  have hc := canon_iff.mp hb
  unfold growBounds
  exact canon_rect (by omega) (by omega)

theorem packLoopG_mono :
    ∀ (rest done : List QueuedData) (b : Rect) (st : InsSt),
      canon b → (∀ d ∈ rest, canon d.pic.rect) →
      (packLoopG rest done b st).1.minX = b.minX ∧
      (packLoopG rest done b st).1.minY = b.minY ∧
      b.dx ≤ (packLoopG rest done b st).1.dx ∧
      b.dy ≤ (packLoopG rest done b st).1.dy := by
  intro rest
  induction rest with
  | nil =>
    intro done b st _ _
    exact ⟨rfl, rfl, le_refl _, le_refl _⟩
  | cons d rest ih =>
    intro done b st hb hcan
    have hdcan : canon d.pic.rect := hcan d (by simp)
    have hgw : 0 ≤ d.pic.rect.dx := (canon_iff.mp hdcan).1
    have hgh : 0 ≤ d.pic.rect.dy := (canon_iff.mp hdcan).2
    have hcanrest : ∀ x ∈ rest, canon x.pic.rect :=
      fun x hx => hcan x (List.mem_cons_of_mem _ hx)
    simp only [packLoopG]
    split
    · split
      case _ st2 heq => exact ih (done ++ [d]) b st2 hb hcanrest
      case _ st2 e heq => exact ⟨rfl, rfl, le_refl _, le_refl _⟩
    · split
      case _ gb gst hgrow =>
        simp only [grow] at hgrow
        rw [Prod.mk.injEq] at hgrow
        obtain ⟨hgb, -⟩ := hgrow
        subst hgb
        obtain ⟨hm1, hm2, hm3, hm4⟩ := growBounds_dims hb hgw hgh
        have hbc2 := growBounds_canon hb hgw hgh
        split
        case _ st3 heq =>
          obtain ⟨i1, i2, i3, i4⟩ :=
            ih (done ++ [d]) (growBounds b d.pic.rect.dx d.pic.rect.dy) st3
              hbc2 hcanrest
          exact ⟨by rw [i1, hm1], by rw [i2, hm2],
            le_trans (by omega) i3, le_trans (by omega) i4⟩
        case _ st3 e heq =>
          exact ⟨hm1, hm2,
            by show b.dx ≤ (growBounds b d.pic.rect.dx d.pic.rect.dy).dx; omega,
            by show b.dy ≤ (growBounds b d.pic.rect.dx d.pic.rect.dy).dy; omega⟩
      case _ gb gst e hgrow =>
        simp only [grow] at hgrow
        rw [Prod.mk.injEq] at hgrow
        obtain ⟨hgb, -⟩ := hgrow
        subst hgb
        obtain ⟨hm1, hm2, hm3, hm4⟩ := growBounds_dims hb hgw hgh
        exact ⟨hm1, hm2,
          by show b.dx ≤ (growBounds b d.pic.rect.dx d.pic.rect.dy).dx; omega,
          by show b.dy ≤ (growBounds b d.pic.rect.dx d.pic.rect.dy).dy; omega⟩

theorem pack_bounds_mono (p : Packer)
    (hb : canon p.bounds) (hcan : ∀ d ∈ p.queued, canon d.pic.rect) :
    ((p.Pack).1).bounds.minX = p.bounds.minX ∧
    ((p.Pack).1).bounds.minY = p.bounds.minY ∧
    p.bounds.dx ≤ ((p.Pack).1).bounds.dx ∧
    p.bounds.dy ≤ ((p.Pack).1).bounds.dy := by
  unfold Packer.Pack
  by_cases hp : p.packed
  · rw [if_pos hp]
    exact ⟨rfl, rfl, le_refl _, le_refl _⟩
  · rw [if_neg hp]
    have hcans : ∀ d ∈ sortQueue p.queued, canon d.pic.rect := by
      intro d hd
      exact hcan d ((sortQueue_perm p.queued).mem_iff.mp hd)
    have hmono := packLoopG_mono (sortQueue p.queued) [] p.bounds
      ⟨p.emptySpaces, p.rects, p.images⟩ hb hcans
    rcases hres : packLoopG (sortQueue p.queued) [] p.bounds
      ⟨p.emptySpaces, p.rects, p.images⟩ with ⟨b2, st, e⟩
    rw [hres] at hmono
    simp only [hres]
    cases e with
    | some e2 => exact hmono
    | none => exact hmono

/-! replay keeps every already-placed id at the same size -/

theorem prefix_placements_sizes (q : List (Int × Img)) (k : Nat)
    (hnd : (q.map Prod.fst).Nodup)
    (hcan : ∀ pr ∈ q, canon pr.2.rect)
    {b1 bF : Rect} {st1 stF : InsSt}
    (hpre : packLoopG ((sortQueue (qdOf q)).take k) [] (rect 0 0 0 0)
      ⟨[], [], []⟩ = (b1, st1, none))
    (hfull : packLoopG (sortQueue (qdOf q)) [] (rect 0 0 0 0)
      ⟨[], [], []⟩ = (bF, stF, none)) :
    ∀ id r, lookupA st1.rects id = some r →
      ∃ r2, lookupA stF.rects id = some r2 ∧ r2.dx = r.dx ∧ r2.dy = r.dy := by
  have hndall := sorted_nodup hnd
  have hcanall := sorted_canon hcan
  have hndtake : (((sortQueue (qdOf q)).take k).map QueuedData.id).Nodup := by
    rw [List.map_take]
    exact hndall.sublist (List.take_sublist _ _)
  have hcantake : ∀ d ∈ (sortQueue (qdOf q)).take k, canon d.pic.rect :=
    fun d hd => hcanall d (List.take_subset _ _ hd)
  have hipre := (packLoopG_inv ((sortQueue (qdOf q)).take k) [] (rect 0 0 0 0)
    ⟨[], [], []⟩ b1 st1 (by simpa using hndtake) (by simpa using hcantake)
    LoopInv_init hpre).1
  have hifull := (packLoopG_inv (sortQueue (qdOf q)) [] (rect 0 0 0 0)
    ⟨[], [], []⟩ bF stF (by simpa using hndall) (by simpa using hcanall)
    LoopInv_init hfull).1
  intro id r hlook
  have hmem := lookupA_mem hlook
  obtain ⟨d, hd, he1, he2, he3⟩ := by
    have := hipre.rDims (id, r) hmem
    simpa using this
  have hdall : d ∈ sortQueue (qdOf q) := List.take_subset _ _ hd
  have hmemk : id ∈ keysOf stF.rects := by
    have hk := hifull.rKeys
    simp only [List.nil_append] at hk
    rw [hk, List.mem_reverse]
    rw [he1]
    exact List.mem_map_of_mem QueuedData.id hdall
  obtain ⟨r2, hr2⟩ := lookupA_isSome_of_mem_keys hmemk
  obtain ⟨d2, hd2, hf1, hf2, hf3⟩ := by
    have := hifull.rDims (id, r2) (lookupA_mem hr2)
    simpa using this
  have : d2 = d := by
    apply List.inj_on_of_nodup_map hndall (by simpa using hd2) hdall
    rw [← hf1, ← he1]
  subst this
  exact ⟨r2, hr2, by rw [hf2, he2], by rw [hf3, he3]⟩

/-- C3 counterexample: before the growth triggered by the 6 by 1 item, id 0
is placed at (3,0)-(5,5); the growth replay relocates it to (0,5)-(2,10),
so a previously placed rectangle is not identical in position after the
growth procedure. -/
theorem grow_replay_moves_item :
    (packLoopG ((sortQueue (qdOf
        [(0, ⟨rect 0 0 2 5, fun _ _ => zeroColor⟩),
         (1, ⟨rect 0 0 6 1, fun _ _ => zeroColor⟩),
         (2, ⟨rect 0 0 3 5, fun _ _ => zeroColor⟩)])).take 2) []
      (rect 0 0 0 0) ⟨[], [], []⟩).2.2 = none ∧
    lookupA (packLoopG ((sortQueue (qdOf
        [(0, ⟨rect 0 0 2 5, fun _ _ => zeroColor⟩),
         (1, ⟨rect 0 0 6 1, fun _ _ => zeroColor⟩),
         (2, ⟨rect 0 0 3 5, fun _ _ => zeroColor⟩)])).take 2) []
      (rect 0 0 0 0) ⟨[], [], []⟩).2.1.rects 0 = some ⟨3, 0, 5, 5⟩ ∧
    find (packLoopG ((sortQueue (qdOf
        [(0, ⟨rect 0 0 2 5, fun _ _ => zeroColor⟩),
         (1, ⟨rect 0 0 6 1, fun _ _ => zeroColor⟩),
         (2, ⟨rect 0 0 3 5, fun _ _ => zeroColor⟩)])).take 2) []
      (rect 0 0 0 0) ⟨[], [], []⟩).2.1.spaces (rect 0 0 6 1) = none ∧
    (packLoopG (sortQueue (qdOf
        [(0, ⟨rect 0 0 2 5, fun _ _ => zeroColor⟩),
         (1, ⟨rect 0 0 6 1, fun _ _ => zeroColor⟩),
         (2, ⟨rect 0 0 3 5, fun _ _ => zeroColor⟩)])) []
      (rect 0 0 0 0) ⟨[], [], []⟩).2.2 = none ∧
    lookupA (packLoopG (sortQueue (qdOf
        [(0, ⟨rect 0 0 2 5, fun _ _ => zeroColor⟩),
         (1, ⟨rect 0 0 6 1, fun _ _ => zeroColor⟩),
         (2, ⟨rect 0 0 3 5, fun _ _ => zeroColor⟩)])) []
      (rect 0 0 0 0) ⟨[], [], []⟩).2.1.rects 0 = some ⟨0, 5, 2, 10⟩ ∧
    (⟨3, 0, 5, 5⟩ : Rect) ≠ ⟨0, 5, 2, 10⟩ :=
  ⟨rfl, rfl, rfl, rfl, rfl, by decide⟩

/-- C3 amended: canvas bounds never shrink across packer operations
(Insert leaves them unchanged and Pack only grows them, on failing runs
included), and after growth every previously placed id is still mapped to
a rectangle of identical width and height, though possibly at a different
position. -/
theorem bounds_mono_and_replay_sizes :
    (∀ (p : Packer) (id : Int) (pic : Img), (p.Insert id pic).bounds = p.bounds) ∧
    (∀ p : Packer, canon p.bounds → (∀ d ∈ p.queued, canon d.pic.rect) →
      ((p.Pack).1).bounds.minX = p.bounds.minX ∧
      ((p.Pack).1).bounds.minY = p.bounds.minY ∧
      p.bounds.dx ≤ ((p.Pack).1).bounds.dx ∧
      p.bounds.dy ≤ ((p.Pack).1).bounds.dy) ∧
    (∀ (q : List (Int × Img)) (k : Nat),
      (q.map Prod.fst).Nodup → (∀ pr ∈ q, canon pr.2.rect) →
      ∀ {b1 bF : Rect} {st1 stF : InsSt},
      packLoopG ((sortQueue (qdOf q)).take k) [] (rect 0 0 0 0)
        ⟨[], [], []⟩ = (b1, st1, none) →
      packLoopG (sortQueue (qdOf q)) [] (rect 0 0 0 0)
        ⟨[], [], []⟩ = (bF, stF, none) →
      ∀ id r, lookupA st1.rects id = some r →
        ∃ r2, lookupA stF.rects id = some r2 ∧ r2.dx = r.dx ∧ r2.dy = r.dy) :=
  ⟨fun _ _ _ => rfl, pack_bounds_mono,
   fun q k hnd hcan => prefix_placements_sizes q k hnd hcan⟩

/-- Witness for C3 amended, at the counterexample queue: id 0 keeps its
2 by 5 size across the growth even though its position changes. -/
theorem bounds_mono_and_replay_sizes_witness :
    ∃ r2, lookupA (packLoopG (sortQueue (qdOf
        [(0, ⟨rect 0 0 2 5, fun _ _ => zeroColor⟩),
         (1, ⟨rect 0 0 6 1, fun _ _ => zeroColor⟩),
         (2, ⟨rect 0 0 3 5, fun _ _ => zeroColor⟩)])) []
      (rect 0 0 0 0) ⟨[], [], []⟩).2.1.rects 0 = some r2 ∧
      r2.dx = (⟨3, 0, 5, 5⟩ : Rect).dx ∧ r2.dy = (⟨3, 0, 5, 5⟩ : Rect).dy :=
  bounds_mono_and_replay_sizes.2.2
    [(0, ⟨rect 0 0 2 5, fun _ _ => zeroColor⟩),
     (1, ⟨rect 0 0 6 1, fun _ _ => zeroColor⟩),
     (2, ⟨rect 0 0 3 5, fun _ _ => zeroColor⟩)] 2
    (by decide)
    (by
      intro pr hpr
      rcases List.mem_cons.mp hpr with rfl | hpr2
      · decide
      rcases List.mem_cons.mp hpr2 with rfl | hpr3
      · decide
      rcases List.mem_cons.mp hpr3 with rfl | hpr4
      · decide
      · simp at hpr4)
    (by rfl) (by rfl) 0 ⟨3, 0, 5, 5⟩ (by rfl)

end Rectpack
